import Mathlib

/-!
# Verification of the SQL evaluator

A shallow embedding of the query evaluation pipeline found in
`sql_evaluator.py`, `table.py` and `table_filter.py`:

* data model for values, rows, tables and the structured query;
* `get_table_for_field`, `validate_and_coalesce_select`,
  `parse_where_clause`, `evaluate_select` and `execute`, translated
  clause-for-clause from the Python source, with failure modelled as an
  explicit error type (`Err`) matching the exceptions the Python code can
  raise (including the accidental ones: `IndexError`, `NameError`,
  `KeyError`, `UnboundLocalError`, `StopIteration`);
* the `TableFilter` predicate evaluator, which in the source *builds a
  Python expression string per condition and `eval`s it per row*.  We
  embed the exact string construction, plus a model of Python `eval`
  restricted to the grammar of the generated comparison expressions
  (`pyEvalCondStr`), and separately a direct typed comparison evaluator
  (`direct_condition`) following the specification's words, related to
  the textual one by bridge lemmas.

Theorems `C1_*` … `C10_*` settle the frozen claims about this pipeline.
-/

/-- A runtime value: the two-valued type model of the engine
(JSON integers and strings, as coerced by the table store). -/
inductive Value where
  | int (n : Int)
  | str (s : String)
  deriving DecidableEq, Repr

/-- A row: a Python dict from qualified column name to value,
modelled as an insertion-ordered association list with unique keys
(first binding wins on lookup, as in a dict). -/
abbrev Row := List (String × Value)

/-- Dict lookup `row[k]`, returning `none` where Python raises `KeyError`. -/
def rowGet (r : Row) (k : String) : Option Value :=
  (r.find? (fun p => p.1 == k)).map (·.2)

/-- Python `dict.__setitem__`: replace the value in place if the key is
present, otherwise append the binding at the end. -/
def dictInsert (r : Row) (k : String) (v : Value) : Row :=
  if r.any (fun p => p.1 == k) then
    r.map (fun p => if p.1 == k then (k, v) else p)
  else
    r ++ [(k, v)]

/-- Python `dict.update`: insert every binding of `s` into `r` in order. -/
def dictUpdate (r s : Row) : Row :=
  s.foldl (fun acc p => dictInsert acc p.1 p.2) r

/-- An in-memory table (`Table` in `table.py`): its alias, its schema
(ordered column name to declared type, `"int"` or `"str"`), and its rows
keyed by qualified name `alias.column`. -/
structure Table where
  name : String
  headers : List (String × String)
  rows : List Row
  deriving DecidableEq, Repr

/-- A possibly-unqualified column reference `{table, name}`. -/
structure ColumnRef where
  table : Option String
  name : String
  deriving DecidableEq, Repr

/-- One side of a condition: a column reference or a literal. -/
inductive Expr where
  | column (ref : ColumnRef)
  | literal (value : Value)
  deriving DecidableEq, Repr

/-- A WHERE condition `{left, op, right}`. -/
structure Condition where
  left : Expr
  op : String
  right : Expr
  deriving DecidableEq, Repr

/-- A SELECT item `{column, as}`. -/
structure SelectField where
  column : ColumnRef
  «as» : String
  deriving DecidableEq, Repr

/-- A FROM item `{source, as}`. -/
structure FromItem where
  source : String
  «as» : String
  deriving DecidableEq, Repr

/-- The structured query document. -/
structure Query where
  select : List SelectField
  «from» : List FromItem
  «where» : List Condition
  deriving DecidableEq, Repr

/-- The exceptions the Python pipeline can raise.  Constructors with
payloads model `Exception(message)` instances whose message is rendered
by `Err.args0`; the rest model built-in exception classes that the code
raises by accident (out-of-range indexing, missing dict keys, undefined
or unbound variables, an exhausted generator, `eval` failures). -/
inductive Err where
  | ambiguousColumn (field : String) (tableNames : List String)
  | tableNotInFrom (tableName : String)
  | typeMismatch (types : List String)
  | indexError (msg : String)
  | keyError (key : String)
  | nameError (varName : String)
  | unboundLocal (varName : String)
  | stopIteration
  | typeError
  | syntaxError
  | wrapped (clause : String) (detail : String)
  deriving DecidableEq, Repr

/-- Python `e.args[0]` as a string: the message carried by the exception.
`StopIteration` has empty `args`, so indexing it raises; we model that
with `none`. -/
def Err.args0 : Err → Option String
  | .ambiguousColumn f ts =>
      some ("Column \"" ++ f ++ "\" is ambiguous, because it is in multiple tables: ["
        ++ String.intercalate ", " (ts.map (fun s => "'" ++ s ++ "'")) ++ "]")
  | .tableNotInFrom t =>
      some ("Table \"" ++ t ++ "\" referenced, but not in FROM clause")
  | .typeMismatch ts =>
      some ("LHS and RHS types do not match ["
        ++ String.intercalate ", " (ts.map (fun s => "'" ++ s ++ "'")) ++ "]")
  | .indexError m => some m
  | .keyError k => some k
  | .nameError v => some ("name '" ++ v ++ "' is not defined")
  | .unboundLocal v =>
      some ("cannot access local variable '" ++ v
        ++ "' where it is not associated with a value")
  | .stopIteration => none
  | .typeError => some "comparison not supported between instances of different types"
  | .syntaxError => some "invalid syntax"
  | .wrapped c d => some ("Error in " ++ c ++ " clause: " ++ d)

/-- The `except Exception as e: raise Exception("Error in X clause: {}".format(e.args[0]))`
wrapper in `execute`.  Indexing the empty `args` of `StopIteration`
itself raises an `IndexError`. -/
def wrapClause (clause : String) (e : Err) : Err :=
  match e.args0 with
  | some m => .wrapped clause m
  | none => .indexError "tuple index out of range"

/-- Python truthiness of an optional string (`None` and `""` are falsy). -/
def truthy : Option String → Bool
  | none => false
  | some s => s != ""

/-- `get_table_for_field` from `sql_evaluator.py`: the tables declaring
the column; more than one is the "ambiguous" exception, and the final
`tables_with_field[0]` raises `IndexError` when there are none. -/
def get_table_for_field (field_name : String) (tables : List Table) : Except Err Table :=
  let tables_with_field := tables.filter (fun t => t.headers.any (fun h => h.1 == field_name))
  if tables_with_field.length > 1 then
    .error (.ambiguousColumn field_name (tables_with_field.map (·.name)))
  else
    match tables_with_field with
    | [] => .error (.indexError "list index out of range")
    | t :: _ => .ok t

/-- One iteration of the `for field in query['select']` loop in
`validate_and_coalesce_select`: infer and set the table when absent,
check the table is a FROM alias, fetch the table object (a generator
`__next__`, hence `StopIteration` when absent), and check the column;
the "Field referenced" branch evaluates the undefined name
`source_table_name` and so raises `NameError`. -/
def validate_select_field (tables : List Table) (fromItems : List FromItem)
    (field : SelectField) : Except Err (SelectField × List (String × String)) := do
  let field ←
    if truthy field.column.table then pure field
    else do
      let t ← get_table_for_field field.column.name tables
      pure { field with column := { field.column with table := some t.name } }
  if truthy field.column.table then
    let table_name := field.column.table.getD ""
    let source_tables := fromItems.map (fun x => (x.«as», x.source))
    if ¬ source_tables.any (fun p => p.1 == table_name) then
      .error (.tableNotInFrom table_name)
    else
      match tables.find? (fun t => t.name == table_name) with
      | none => .error .stopIteration
      | some table =>
        match table.headers.find? (fun h => h.1 == field.column.name) with
        | none => .error (.nameError "source_table_name")
        | some h => pure (field, [(field.«as», h.2)])
  else
    pure (field, [])

/-- The loop of `validate_and_coalesce_select`, returning the annotated
select list together with the accumulated `query_headers`. -/
def validate_select_go (tables : List Table) (fromItems : List FromItem) :
    List SelectField → Except Err (List SelectField × List (String × String))
  | [] => .ok ([], [])
  | f :: fs => do
    let (f', hs) ← validate_select_field tables fromItems f
    let (fs', rest) ← validate_select_go tables fromItems fs
    .ok (f' :: fs', hs ++ rest)

/-- `validate_and_coalesce_select`: produces the output header list and
the query with its select items annotated in place. -/
def validate_and_coalesce_select (query : Query) (tables : List Table) :
    Except Err (List (String × String) × Query) := do
  let (sel', headers) ← validate_select_go tables query.«from» query.select
  .ok (headers, { query with select := sel' })

/-- The runtime type label of a literal after JSON de-serialization:
`isinstance(literal, int)` gives `"int"`, anything else `"str"`. -/
def literalTypeLabel : Value → String
  | .int _ => "int"
  | .str _ => "str"

/-- Adding an element to a Python `set`, modelled as an
insertion-ordered duplicate-free list. -/
def addToSet (x : String) (s : List String) : List String :=
  if x ∈ s then s else s ++ [x]

/-- Resolution of a column reference in the WHERE clause: a qualified
reference indexes `[t for t in tables if t.name == …][0]` (an
`IndexError` for an unknown qualifier), an unqualified one is inferred
through `get_table_for_field`. -/
def resolve_table (tables : List Table) (ref : ColumnRef) : Except Err Table :=
  if truthy ref.table then
    match tables.filter (fun t => t.name == ref.table.getD "") with
    | [] => .error (.indexError "list index out of range")
    | t :: _ => .ok t
  else get_table_for_field ref.name tables

/-- One side of the `for side in ('left', 'right')` loop in
`parse_where_clause`: resolve the column's table (annotating an
inferred reference in place), record the declared type
(`table.headers[field_name]` raises `KeyError` for an unknown column)
and the table involved; a literal records its runtime type label.  The
threaded `Option Table` is the loop-local variable `table`, which Python
keeps across iterations and conditions. -/
def classify_side (tables : List Table) (types involved : List String)
    (lastTable : Option Table) : Expr →
    Except Err (Expr × List String × List String × Option Table)
  | .literal v =>
      .ok (.literal v, addToSet (literalTypeLabel v) types, involved, lastTable)
  | .column ref => do
    let table ← resolve_table tables ref
    let ref' := if truthy ref.table then ref else { ref with table := some table.name }
    match table.headers.find? (fun h => h.1 == ref.name) with
    | none => .error (.keyError ref.name)
    | some h =>
      .ok (.column ref', addToSet h.2 types, addToSet table.name involved, some table)

/-- One iteration of the `for condition in query['where']` loop: process
the left then the right side, starting from empty `condition_types` and
`tables_involved` sets. -/
def classify_condition (tables : List Table) (lastTable : Option Table)
    (c : Condition) : Except Err (Condition × List String × List String × Option Table) := do
  let (l', ty1, inv1, lt1) ← classify_side tables [] [] lastTable c.left
  let (r', ty2, inv2, lt2) ← classify_side tables ty1 inv1 lt1 c.right
  .ok ({ c with left := l', right := r' }, ty2, inv2, lt2)

/-- `defaultdict(list)` append: extend the keyed bucket, creating it at
the end when absent. -/
def addEarly (early : List (String × List Condition)) (key : String) (c : Condition) :
    List (String × List Condition) :=
  if early.any (fun p => p.1 == key) then
    early.map (fun p => if p.1 == key then (p.1, p.2 ++ [c]) else p)
  else early ++ [(key, [c])]

/-- The main loop of `parse_where_clause`.  After each condition: a type
label set larger than one is the type-mismatch exception; more than one
table involved appends to the late list; otherwise the condition is
appended to `early_clauses[table.name]` where `table` is the loop-local
variable — unbound (`UnboundLocalError`) when no column reference has
been resolved yet.  `acc` collects the annotated conditions in input
order, modelling the in-place mutation of `query['where']`. -/
def parse_where_go (tables : List Table) (lastTable : Option Table)
    (early : List (String × List Condition)) (late : List Condition)
    (acc : List Condition) :
    List Condition → Except Err (List (String × List Condition) × List Condition × List Condition)
  | [] => .ok (early, late, acc)
  | c :: cs => do
    let (c', types, involved, lt') ← classify_condition tables lastTable c
    if types.length > 1 then
      .error (.typeMismatch types)
    else if involved.length > 1 then
      parse_where_go tables lt' early (late ++ [c']) (acc ++ [c']) cs
    else
      match lt' with
      | none => .error (.unboundLocal "table")
      | some t => parse_where_go tables lt' (addEarly early t.name c') late (acc ++ [c']) cs

/-- `parse_where_clause`: classify every WHERE condition into the early
buckets and the late list (both holding annotated conditions), also
returning the full annotated condition list in input order. -/
def parse_where_clause (query : Query) (tables : List Table) :
    Except Err (List (String × List Condition) × List Condition × List Condition) :=
  parse_where_go tables none [] [] [] query.«where»

/-- The decimal digit characters. -/
def digitChar : Nat → Char
  | 0 => '0' | 1 => '1' | 2 => '2' | 3 => '3' | 4 => '4'
  | 5 => '5' | 6 => '6' | 7 => '7' | 8 => '8' | _ => '9'

/-- Decimal digits of a natural number, most significant first
(the digits Python's `str` prints). -/
def natDigits (n : Nat) : List Char :=
  if _h : n < 10 then [digitChar n]
  else natDigits (n / 10) ++ [digitChar (n % 10)]
decreasing_by exact Nat.div_lt_self (by omega) (by omega)

/-- Python `str` of a natural number. -/
def pyStrNat (n : Nat) : String := ⟨natDigits n⟩

/-- Python `str` of an integer: an optional minus sign and the decimal
digits of the absolute value. -/
def pyStrInt (n : Int) : String :=
  if n < 0 then "-" ++ pyStrNat n.natAbs else pyStrNat n.toNat

/-- `OP_MAPPINGS.get(op, op)` from `table_filter.py`: rewrite `=` to the
Python operator `==`, pass every other operator string through. -/
def OP_MAPPINGS (op : String) : String := if op == "=" then "==" else op

/-- The qualified-name string `'{}.{}'.format(table, name)`; an
unresolved reference formats its `None` table as the text `None`. -/
def columnKey (ref : ColumnRef) : String :=
  (match ref.table with | some t => t | none => "None") ++ "." ++ ref.name

namespace TableFilter

/-- `TableFilter.expression`: render one side of a condition as Python
expression text — a string literal wrapped in single quotes, an integer
via `str`, a column as a subscript of the row dict. -/
def expression : Expr → String
  | .literal (.str s) => "'" ++ s ++ "'"
  | .literal (.int n) => pyStrInt n
  | .column ref => "row[\"" ++ columnKey ref ++ "\"]"

/-- The `'{left} {op} {right}'.format(...)` construction in
`TableFilter.__init__`. -/
def buildCondition (c : Condition) : String :=
  expression c.left ++ " " ++ OP_MAPPINGS c.op ++ " " ++ expression c.right

/-- `TableFilter.__init__`: compile every condition to its expression
text. -/
def build (conditions : List Condition) : List String :=
  conditions.map buildCondition

end TableFilter

/-- A term of the tiny expression grammar the generated text lives in:
an integer literal, a string literal, or a subscript `row["key"]`. -/
inductive PyTerm where
  | int (n : Int)
  | str (s : String)
  | subscript (key : String)
  deriving DecidableEq, Repr

/-- A parsed comparison `lhs op rhs`. -/
structure PyCmp where
  lhs : PyTerm
  op : String
  rhs : PyTerm
  deriving DecidableEq, Repr

/-- Skip space characters. -/
def skipSpaces : List Char → List Char
  | [] => []
  | c :: rest => if c = ' ' then skipSpaces rest else c :: rest

/-- The replacement of a backslash escape inside a Python
single-quoted string literal (unknown escapes keep the backslash). -/
def escSeq (c : Char) : List Char :=
  if c = 'n' then ['\n'] else if c = 't' then ['\t'] else if c = 'r' then ['\r']
  else if c = '\\' then ['\\'] else if c = '\'' then ['\''] else if c = '"' then ['"']
  else ['\\', c]

/-- Scan the body of a single-quoted Python string literal after its
opening quote: content runs to the next unescaped quote; reaching the
end of input is an unterminated literal (a syntax error). -/
def scanStr : List Char → Option (List Char × List Char)
  | [] => none
  | c :: rest =>
    if c = '\'' then some ([], rest)
    else if c = '\\' then
      match rest with
      | [] => none
      | e :: rest' => (scanStr rest').map (fun p => (escSeq e ++ p.1, p.2))
    else (scanStr rest).map (fun p => (c :: p.1, p.2))

/-- Span of decimal digits at the head of the input. -/
def scanDigits : List Char → List Char × List Char
  | [] => ([], [])
  | c :: rest =>
    if c.isDigit then
      let (ds, r) := scanDigits rest
      (c :: ds, r)
    else ([], c :: rest)

/-- Numeric value of a digit string. -/
def parseNatChars (ds : List Char) : Nat :=
  ds.foldl (fun a c => a * 10 + (c.toNat - 48)) 0

/-- Scan to the closing double quote of a subscript key. -/
def scanUntilDQ : List Char → Option (List Char × List Char)
  | [] => none
  | c :: rest =>
    if c = '"' then some ([], rest)
    else (scanUntilDQ rest).map (fun p => (c :: p.1, p.2))

/-- Parse one term of the generated grammar: a single-quoted string, a
subscript `row["…"]`, or a (possibly negated) integer literal. -/
def parseTerm (l : List Char) : Option (PyTerm × List Char) :=
  match l with
  | [] => none
  | c :: rest =>
    if c = '\'' then
      (scanStr rest).map (fun p => (.str ⟨p.1⟩, p.2))
    else if l.take 5 = ['r', 'o', 'w', '[', '"'] then
      match scanUntilDQ (l.drop 5) with
      | some (k, ']' :: r) => some (.subscript ⟨k⟩, r)
      | _ => none
    else if c = '-' then
      match rest with
      | [] => none
      | d :: _ =>
        if d.isDigit then
          let (ds, r) := scanDigits rest
          some (.int (-(parseNatChars ds : Int)), r)
        else none
    else if c.isDigit then
      let (ds, r) := scanDigits l
      some (.int (parseNatChars ds : Int), r)
    else none

/-- Parse a comparison operator token. -/
def parseOp : List Char → Option (String × List Char)
  | '=' :: '=' :: r => some ("==", r)
  | '!' :: '=' :: r => some ("!=", r)
  | '<' :: '=' :: r => some ("<=", r)
  | '>' :: '=' :: r => some (">=", r)
  | '<' :: r => some ("<", r)
  | '>' :: r => some (">", r)
  | _ => none

/-- Compile (parse) a generated condition string as Python would:
term, comparison operator, term, end of input.  `none` models
`SyntaxError`: in particular a quote inside an interpolated string
literal derails the parse. -/
def parseCond (s : String) : Option PyCmp := do
  let l := skipSpaces s.data
  let (t1, r1) ← parseTerm l
  let (op, r2) ← parseOp (skipSpaces r1)
  let (t2, r3) ← parseTerm (skipSpaces r2)
  if skipSpaces r3 = [] then some ⟨t1, op, t2⟩ else none

/-- Strict lexicographic order on character lists by code point —
Python's `str` ordering. -/
def charListLt : List Char → List Char → Bool
  | [], [] => false
  | [], _ :: _ => true
  | _ :: _, [] => false
  | a :: as, b :: bs => if a < b then true else if b < a then false else charListLt as bs

/-- Python string `<`. -/
def pyStrLt (x y : String) : Bool := charListLt x.data y.data

/-- Python comparison of two runtime values under one of the six
operators: `==`/`!=` succeed on any pair (different types are simply
unequal); the ordering operators compare integers numerically and
strings lexicographically, and raise `TypeError` across types. -/
def pyCompare (op : String) (a b : Value) : Except Err Bool :=
  if op == "==" then .ok (a == b)
  else if op == "!=" then .ok (a != b)
  else
    match a, b with
    | .int x, .int y =>
      if op == "<" then .ok (decide (x < y))
      else if op == "<=" then .ok (decide (x ≤ y))
      else if op == ">" then .ok (decide (y < x))
      else if op == ">=" then .ok (decide (y ≤ x))
      else .error .syntaxError
    | .str x, .str y =>
      if op == "<" then .ok (pyStrLt x y)
      else if op == "<=" then .ok (!pyStrLt y x)
      else if op == ">" then .ok (pyStrLt y x)
      else if op == ">=" then .ok (!pyStrLt x y)
      else .error .syntaxError
    | _, _ => .error .typeError

/-- Evaluate a parsed term against a row: a subscript is a dict lookup
(`KeyError` when absent). -/
def evalTerm (row : Row) : PyTerm → Except Err Value
  | .int n => .ok (.int n)
  | .str s => .ok (.str s)
  | .subscript k =>
    match rowGet row k with
    | some v => .ok v
    | none => .error (.keyError k)

/-- Run a parsed comparison against a row. -/
def evalCmp (row : Row) (c : PyCmp) : Except Err Bool := do
  let a ← evalTerm row c.lhs
  let b ← evalTerm row c.rhs
  pyCompare c.op a b

/-- Python `eval(condition)` on a generated condition string: compile
(possibly a `SyntaxError`), then run against the row. -/
def pyEvalCondStr (row : Row) (s : String) : Except Err Bool :=
  match parseCond s with
  | none => .error .syntaxError
  | some c => evalCmp row c

namespace TableFilter

/-- `TableFilter.__call__`: `eval` each compiled condition string in
order; a falsy result short-circuits to `False`, all truthy gives
`True`; exceptions propagate. -/
def call (conds : List String) (row : Row) : Except Err Bool :=
  match conds with
  | [] => .ok true
  | c :: rest => do
    let b ← pyEvalCondStr row c
    if b then call rest row else .ok false

end TableFilter

/-- Evaluate one side of a condition directly (the specification's
"value accessor": a fixed literal, or lookup of the qualified name). -/
def direct_expression (e : Expr) (row : Row) : Except Err Value :=
  match e with
  | .literal v => .ok v
  | .column ref =>
    match rowGet row (columnKey ref) with
    | some v => .ok v
    | none => .error (.keyError (columnKey ref))

/-- Direct typed evaluation of one condition against a row, following
the specification's words in §4.3: fetch the two values and compare
them directly, never through generated text. -/
def direct_condition (c : Condition) (row : Row) : Except Err Bool := do
  let a ← direct_expression c.left row
  let b ← direct_expression c.right row
  pyCompare (OP_MAPPINGS c.op) a b

/-- Direct conjunction over a condition list (AND semantics with the
same short-circuiting as `TableFilter.__call__`). -/
def direct_matches (conds : List Condition) (row : Row) : Except Err Bool :=
  match conds with
  | [] => .ok true
  | c :: rest => do
    let b ← direct_condition c row
    if b then direct_matches rest row else .ok false

/-- `Table.filter` in `table.py` composed with the consumption of the
resulting lazy `filter` object: keep the rows on which the compiled
`TableFilter` returns true, propagating the first evaluation error. -/
def filterRowsGo (conds : List String) : List Row → Except Err (List Row)
  | [] => .ok []
  | r :: rs => do
    let b ← TableFilter.call conds r
    let rest ← filterRowsGo conds rs
    .ok (if b then r :: rest else rest)

/-- `table.filter(conditions)`: compile the conditions once, then filter
the rows. -/
def Table.filterRows (t : Table) (conditions : List Condition) : Except Err (List Row) :=
  filterRowsGo (TableFilter.build conditions) t.rows

/-- `evaluate_select`: extract each select item's qualified value from
the joined row, in select-list order.  An item whose table is still
`None` makes `'.'.join` raise `TypeError`; a missing key raises
`KeyError`. -/
def evaluate_select_go (row : Row) : List SelectField → Except Err (List Value)
  | [] => .ok []
  | f :: fs =>
    match f.column.table with
    | none => .error .typeError
    | some t =>
      let key := t ++ "." ++ f.column.name
      match rowGet row key with
      | none => .error (.keyError key)
      | some v => do
        let rest ← evaluate_select_go row fs
        .ok (v :: rest)

/-- `evaluate_select(row, query)` from `sql_evaluator.py`. -/
def evaluate_select (row : Row) (query : Query) : Except Err (List Value) :=
  evaluate_select_go row query.select

/-- `itertools.product`: the cross product of the row lists, tuples
enumerated with the left-most list varying slowest (the standard
nested-loop order). -/
def itertools_product : List (List Row) → List (List Row)
  | [] => [[]]
  | l :: ls => (l.map (fun r => (itertools_product ls).map (fun t => r :: t))).flatten

/-- The `joined_row.update(t)` loop: merge a product tuple into one row
dict, left to right. -/
def joinRows (tuple : List Row) : Row :=
  tuple.foldl dictUpdate []

/-- Lookup of a table's early bucket (`table.name in early_clauses`). -/
def lookupEarly (early : List (String × List Condition)) (k : String) :
    Option (List Condition) :=
  (early.find? (fun p => p.1 == k)).map (·.2)

/-- The pushdown loop of `execute`: each table with an early bucket is
replaced by its filtered rows, the rest stay unfiltered.
`itertools.product` materializes its arguments left to right, so the
first filtering error (if any) surfaces here. -/
def filter_tables (tables : List Table)
    (early : List (String × List Condition)) : Except Err (List (List Row)) :=
  match tables with
  | [] => .ok []
  | t :: ts => do
    let rows ←
      match lookupEarly early t.name with
      | some conds => t.filterRows conds
      | none => .ok t.rows
    let rest ← filter_tables ts early
    .ok (rows :: rest)

/-- One element of the lazy output stream of `execute`. -/
inductive OutElem where
  | header (h : List (String × String))
  | row (r : List Value)
  deriving DecidableEq, Repr

/-- The post-join loop of `execute`: run the late filter on each joined
row and project the survivors; the first raised exception ends the
stream. -/
def produce_rows (query : Query) (lateStrs : List String) :
    List Row → List (List Value) × Option Err
  | [] => ([], none)
  | j :: js =>
    match TableFilter.call lateStrs j with
    | .error e => ([], some e)
    | .ok false => produce_rows query lateStrs js
    | .ok true =>
      match evaluate_select j query with
      | .error e => ([], some e)
      | .ok vals =>
        let (rest, err) := produce_rows query lateStrs js
        (vals :: rest, err)

/-- `execute(query, tables)`: the generator's complete observable
behaviour, as the finite list of elements it yields followed by the
exception (if any) it raises.  Validation failures are wrapped with
their clause context and abort before anything is yielded; the header
is yielded before the join runs; a failure while filtering or joining
ends the stream after the elements already produced. -/
def execute (query : Query) (tables : List Table) : List OutElem × Option Err :=
  match validate_and_coalesce_select query tables with
  | .error e => ([], some (wrapClause "SELECT" e))
  | .ok (result_headers, query) =>
    match parse_where_clause query tables with
    | .error e => ([], some (wrapClause "WHERE" e))
    | .ok (early, late, _annotated) =>
      let lateStrs := TableFilter.build late
      match filter_tables tables early with
      | .error e => ([.header result_headers], some e)
      | .ok tablesRows =>
        let joined := (itertools_product tablesRows).map joinRows
        let (rows, err) := produce_rows query lateStrs joined
        (.header result_headers :: rows.map .row, err)

/-- Modelled from the spec: the comparison baseline of §8's pushdown
equivalence — "the output row set obtained by evaluating every
condition only after the full cross join".  It runs the same
resolution and classification (so the conditions are annotated
identically), but joins the tables *unfiltered* and applies every
annotated WHERE condition after the join. -/
def execute_all_late (query : Query) (tables : List Table) : List OutElem × Option Err :=
  match validate_and_coalesce_select query tables with
  | .error e => ([], some (wrapClause "SELECT" e))
  | .ok (result_headers, query) =>
    match parse_where_clause query tables with
    | .error e => ([], some (wrapClause "WHERE" e))
    | .ok (_early, _late, annotated) =>
      let allStrs := TableFilter.build annotated
      let joined := (itertools_product (tables.map (·.rows))).map joinRows
      let (rows, err) := produce_rows query allStrs joined
      (.header result_headers :: rows.map .row, err)

/-- The data rows of an output trace. -/
def dataRows (out : List OutElem × Option Err) : List (List Value) :=
  out.1.filterMap (fun e => match e with | .row r => some r | .header _ => none)

/-- The declared-or-runtime type label of one condition side, following
the classification rule of §4.2: a literal is labelled by its runtime
type, a column by the declared schema type of its resolved table. -/
def sideLabel (tables : List Table) : Expr → Except Err String
  | .literal v => .ok (literalTypeLabel v)
  | .column ref => do
    let t ← resolve_table tables ref
    match t.headers.find? (fun h => h.1 == ref.name) with
    | none => .error (.keyError ref.name)
    | some h => .ok h.2

/-- The table aliases a (resolved) condition side adds to the
`tables_involved` set. -/
def exprAliases (e : Expr) (s : List String) : List String :=
  match e with
  | .literal _ => s
  | .column ref => addToSet (ref.table.getD "") s

/-- The set (insertion-ordered, duplicate-free) of table aliases an
annotated condition references through its column sides. -/
def condAliases (c : Condition) : List String :=
  exprAliases c.right (exprAliases c.left [])

/-- All conditions held in the early buckets, in bucket order. -/
def earlyConds (early : List (String × List Condition)) : List Condition :=
  (early.map (·.2)).flatten

/-- The parsed term a condition side compiles to through
`TableFilter.expression`. -/
def termOf : Expr → PyTerm
  | .literal (.int n) => .int n
  | .literal (.str s) => .str s
  | .column ref => .subscript (columnKey ref)

/-- Total Boolean reading of the direct evaluation of one condition
(false when evaluation would raise). -/
def condB (c : Condition) (row : Row) : Bool :=
  match direct_condition c row with
  | .ok b => b
  | .error _ => false

/-- Total Boolean reading of the direct conjunction over a condition
list. -/
def matchesB (conds : List Condition) (row : Row) : Bool :=
  match direct_matches conds row with
  | .ok b => b
  | .error _ => false

/-- The projection loop with no late conditions: every joined row is
passed straight to `evaluate_select`. -/
def project_rows (query : Query) : List Row → List (List Value) × Option Err
  | [] => ([], none)
  | j :: js =>
    match evaluate_select j query with
    | .error e => ([], some e)
    | .ok vals =>
      let (rest, err) := project_rows query js
      (vals :: rest, err)

/-- The six operator strings of the query format (§3 of the spec). -/
def validOps : List String := ["=", "!=", "<", "<=", ">", ">="]

/-- A string literal that the textual compilation of `TableFilter`
round-trips: no quote and no backslash to derail the generated Python
expression. -/
def cleanLit : Expr → Prop
  | .literal (.str s) => '\'' ∉ s.data ∧ '\\' ∉ s.data
  | _ => True

/-- A condition whose operator is one of the six of the query format
and whose literals are clean. -/
def condWF (c : Condition) : Prop :=
  c.op ∈ validOps ∧ cleanLit c.left ∧ cleanLit c.right

/-- Queries well-formed per the data model (§3): every WHERE condition
uses one of the six operators and clean literal values. -/
def queryWF (q : Query) : Prop := ∀ c ∈ q.«where», condWF c

/-- A usable identifier: non-empty, no dot (so qualified keys split
unambiguously), and no double quote or backslash (so the generated
subscript text round-trips). -/
def nameOK (s : String) : Prop :=
  s ≠ "" ∧ '.' ∉ s.data ∧ '"' ∉ s.data ∧ '\\' ∉ s.data

/-- Well-formedness of one table, §6 of the spec: identifier-like alias
and column names, declared types drawn from the two-valued model,
distinct columns, and every row keyed by the qualified column names in
schema order with values already coerced to their declared types. -/
def tableWF (t : Table) : Prop :=
  nameOK t.name
  ∧ (t.headers.map (·.1)).Nodup
  ∧ (∀ h ∈ t.headers, (h.2 = "int" ∨ h.2 = "str") ∧ nameOK h.1)
  ∧ ∀ r ∈ t.rows, List.Forall₂
      (fun (kv : String × Value) (h : String × String) =>
        kv.1 = t.name ++ "." ++ h.1 ∧ literalTypeLabel kv.2 = h.2) r t.headers

/-- Well-formedness of the table set: pairwise distinct aliases
(§3's FROM invariant) and well-formed members. -/
def tablesWF (ts : List Table) : Prop :=
  (ts.map (·.name)).Nodup ∧ ∀ t ∈ ts, tableWF t

/-- Example table `u` with one row, used to instantiate theorems. -/
def exU : Table :=
  ⟨"u", [("id", "int"), ("name", "str")], [[("u.id", .int 1), ("u.name", .str "Al")]]⟩

/-- Example table `o` with two rows, used to instantiate theorems. -/
def exO : Table :=
  ⟨"o", [("id", "int"), ("user_id", "int")],
    [[("o.id", .int 10), ("o.user_id", .int 1)],
     [("o.id", .int 11), ("o.user_id", .int 2)]]⟩

/-- Scenario-1 query: `select u.name, o.id from u, o where u.id = o.user_id`
(the first select item unqualified, the second condition side
unqualified, both to be resolved). -/
def exQ1 : Query :=
  ⟨[⟨⟨none, "name"⟩, "name"⟩, ⟨⟨some "o", "id"⟩, "id"⟩],
   [⟨"u", "u"⟩, ⟨"o", "o"⟩],
   [⟨.column ⟨some "u", "id"⟩, "=", .column ⟨none, "user_id"⟩⟩]⟩

/-- A string literal containing a single quote, built character by
character: `a'b`. -/
def quotedLit : String := ⟨['a', '\'', 'b']⟩

/-- The condition `'a'b' = 'a'b'` comparing the quote-carrying literal
to itself. -/
def exQuoteCond : Condition := ⟨.literal (.str quotedLit), "=", .literal (.str quotedLit)⟩

/-- Example table `u` with a single int column `age`. -/
def exUAge : Table := ⟨"u", [("age", "int")], [[("u.age", .int 30)]]⟩

/-- Query selecting `u.age` where `u` has no such column. -/
def exQSelBadCol : Query := ⟨[⟨⟨some "u", "age"⟩, "age"⟩], [⟨"u", "u"⟩], []⟩

/-- Query selecting `x.id` where alias `x` is not in the FROM list. -/
def exQSelBadTable : Query := ⟨[⟨⟨some "x", "id"⟩, "id"⟩], [⟨"u", "u"⟩], []⟩

/-- Query with the type-mismatching condition `u.age = "thirty"`. -/
def exQTypeMismatch : Query :=
  ⟨[⟨⟨some "u", "age"⟩, "a"⟩], [⟨"u", "u"⟩],
   [⟨.column ⟨some "u", "age"⟩, "=", .literal (.str "thirty")⟩]⟩

/-- Query whose first WHERE condition compares two literals. -/
def exQLitFirst : Query :=
  ⟨[⟨⟨some "u", "age"⟩, "a"⟩], [⟨"u", "u"⟩],
   [⟨.literal (.int 1), "=", .literal (.int 2)⟩]⟩

/-- Scenario-1 query without a WHERE clause. -/
def exQNoWhere : Query :=
  ⟨[⟨⟨none, "name"⟩, "name"⟩, ⟨⟨some "o", "id"⟩, "id"⟩],
   [⟨"u", "u"⟩, ⟨"o", "o"⟩], []⟩

/-- C3: resolving an unqualified column against the table set: exactly one
declaring table is returned, and more than one fails with the ambiguity
error naming every matching alias; but zero declaring tables does not
fail with a dedicated column-not-found error — the unguarded
`tables_with_field[0]` raises a bare `IndexError` whose message
("list index out of range") never names the missing column. -/
theorem C3_zero_matches_raise_bare_IndexError :
    get_table_for_field "name" [exU, exO] = .ok exU
    ∧ get_table_for_field "id" [exU, exO] = .error (.ambiguousColumn "id" ["u", "o"])
    ∧ get_table_for_field "zzz" [exU, exO] = .error (.indexError "list index out of range")
    ∧ Err.args0 (.indexError "list index out of range") = some "list index out of range" :=
  ⟨rfl, rfl, rfl, rfl⟩

/-- C4: the unknown-table path of SELECT validation raises the intended
error and is wrapped preserving its detail, but the unknown-column path
never reaches its intended message: formatting it evaluates the
undefined variable `source_table_name`, so the code raises a `NameError`
(wrapped as "Error in SELECT clause: name 'source_table_name' is not
defined") instead of an unknown-column error. -/
theorem C4_unknown_column_path_raises_NameError :
    execute exQSelBadTable [exU]
      = ([], some (.wrapped "SELECT" "Table \"x\" referenced, but not in FROM clause"))
    ∧ execute exQSelBadCol [exU]
      = ([], some (.wrapped "SELECT" "name 'source_table_name' is not defined"))
    ∧ Err.args0 (.wrapped "SELECT" "name 'source_table_name' is not defined")
      = some "Error in SELECT clause: name 'source_table_name' is not defined" :=
  ⟨rfl, rfl, rfl⟩

/-- C2: the predicate evaluator does build a textual Python expression
from the literal values and interpret it: on the condition comparing the
string literal `a'b` to itself it produces the text `'a'b' == 'a'b'`,
whose evaluation is a syntax error — whereas the direct typed comparison
of the specification yields true.  (For quote-free literals the textual
route agrees with the direct one; see the bridge lemmas used by C1.) -/
theorem C2_textual_evaluation_breaks_on_quoted_literal :
    TableFilter.buildCondition exQuoteCond = "'a'b' == 'a'b'"
    ∧ TableFilter.call (TableFilter.build [exQuoteCond]) [] = .error .syntaxError
    ∧ direct_matches [exQuoteCond] [] = .ok true :=
  ⟨rfl, rfl, rfl⟩

/-- The annotation `validate_and_coalesce_select` produces for
`exQNoWhere` against `[exU, exO]`. -/
def exQNoWhereAnn : Query :=
  ⟨[⟨⟨some "u", "name"⟩, "name"⟩, ⟨⟨some "o", "id"⟩, "id"⟩],
   [⟨"u", "u"⟩, ⟨"o", "o"⟩], []⟩

/-- The annotated form of `exQ1`'s WHERE condition after
classification (its unqualified right side resolved to `o`). -/
def exQ1CondAnn : Condition :=
  ⟨.column ⟨some "u", "id"⟩, "=", .column ⟨some "o", "user_id"⟩⟩

/-- A condition side whose compiled expression text round-trips
through the Python lexer: string literals carry no quote or backslash,
and column keys carry no double quote or backslash. -/
def sideClean : Expr → Prop
  | .literal (.int _) => True
  | .literal (.str s) => '\'' ∉ s.data ∧ '\\' ∉ s.data
  | .column ref => '"' ∉ (columnKey ref).data ∧ '\\' ∉ (columnKey ref).data

/-- An annotated condition side carrying the type label `l`: a literal
of that runtime label, or a column annotated with a member table in
whose schema the column is declared with type `l`. -/
def annSideOK (tables : List Table) (e : Expr) (l : String) : Prop :=
  (∃ v, e = .literal v ∧ literalTypeLabel v = l)
  ∨ (∃ ref t, e = .column ref ∧ t ∈ tables ∧ ref.table = some t.name
      ∧ t.headers.find? (fun p => p.1 == ref.name) = some (ref.name, l))

/-- A well-annotated, well-typed condition: both sides resolve against
the table set and carry one shared type label. -/
def annCondOK (tables : List Table) (c : Condition) : Prop :=
  ∃ l, annSideOK tables c.left l ∧ annSideOK tables c.right l

/-- Bind on an `ok` value steps to the continuation. -/
@[simp] theorem exc_bind_ok {ε α β : Type _} (a : α) (f : α → Except ε β) :
    (Except.ok a : Except ε α) >>= f = f a := rfl

/-- Bind on an `error` value short-circuits. -/
@[simp] theorem exc_bind_error {ε α β : Type _} (e : ε) (f : α → Except ε β) :
    (Except.error e : Except ε α) >>= f = .error e := rfl

/-- Pure for `Except` is `ok`. -/
@[simp] theorem exc_pure_eq {ε α : Type _} (a : α) :
    (pure a : Except ε α) = .ok a := rfl

/-- A successfully labelled side classifies with that label added to the
running type set (and some annotation, involvement and last-table
update). -/
theorem classify_side_of_sideLabel (tables : List Table) (ty inv : List String)
    (lt : Option Table) (e : Expr) (l : String) (h : sideLabel tables e = .ok l) :
    ∃ e' inv' lt', classify_side tables ty inv lt e = .ok (e', addToSet l ty, inv', lt') := by
  cases e with
  | literal v =>
    simp only [sideLabel, Except.ok.injEq] at h
    subst h
    exact ⟨_, _, _, rfl⟩
  | column ref =>
    cases hres : resolve_table tables ref with
    | error err =>
      rw [sideLabel, hres] at h
      simp at h
    | ok t =>
      rw [sideLabel, hres] at h
      simp only [exc_bind_ok] at h
      cases hfind : t.headers.find? (fun p => p.1 == ref.name) with
      | none =>
        rw [hfind] at h
        cases h
      | some pr =>
        rw [hfind] at h
        simp only [Except.ok.injEq] at h
        subst h
        refine ⟨.column (if truthy ref.table then ref else { ref with table := some t.name }),
          addToSet t.name inv, some t, ?_⟩
        simp only [classify_side, hres, exc_bind_ok, hfind]

/-- C5 (counterexample): on the condition `u.age = "thirty"` against an
int column, classification fails with the type-mismatch error listing
the labels "int" and "str" — not "int" and "string" as the claim
states; no label "string" ever appears. -/
theorem C5_counterexample_label_is_str_not_string :
    parse_where_clause exQTypeMismatch [exUAge] = .error (.typeMismatch ["int", "str"])
    ∧ execute exQTypeMismatch [exUAge]
      = ([], some (.wrapped "WHERE" "LHS and RHS types do not match ['int', 'str']"))
    ∧ "string" ∉ (["int", "str"] : List String) :=
  ⟨rfl, rfl, by decide⟩

/-- C5 (amended): a literal side is labelled "int" for integer values
and "str" (not "string") otherwise, a column side by the declared schema
type of its resolved table; when the two sides of a condition carry
different labels, its classification fails with the type-mismatch error
naming both offending labels. -/
theorem C5_two_distinct_labels_fail_with_TypeMismatch
    (tables : List Table) (lt : Option Table)
    (early : List (String × List Condition)) (late acc cs : List Condition)
    (c : Condition) (ll lr : String)
    (hl : sideLabel tables c.left = .ok ll)
    (hr : sideLabel tables c.right = .ok lr)
    (hne : ll ≠ lr) :
    parse_where_go tables lt early late acc (c :: cs) = .error (.typeMismatch [ll, lr])
    ∧ ll ∈ [ll, lr] ∧ lr ∈ [ll, lr]
    ∧ (∀ n : Int, sideLabel tables (.literal (.int n)) = .ok "int")
    ∧ (∀ s : String, sideLabel tables (.literal (.str s)) = .ok "str") := by
  obtain ⟨el, inv1, lt1, h1⟩ := classify_side_of_sideLabel tables [] [] lt c.left ll hl
  obtain ⟨er, inv2, lt2, h2⟩ := classify_side_of_sideLabel tables (addToSet ll []) inv1 lt1 c.right lr hr
  have hone : addToSet ll [] = [ll] := rfl
  have htwo : addToSet lr [ll] = [ll, lr] := by
    simp [addToSet, hne.symm]
  refine ⟨?_, by simp, by simp, fun n => rfl, fun s => rfl⟩
  have hcc : classify_condition tables lt c = .ok ({ c with left := el, right := er }, [ll, lr], inv2, lt2) := by
    rw [classify_condition]
    rw [h1]
    simp only [exc_bind_ok, hone] at h2 ⊢
    rw [h2, htwo]
    rfl
  rw [parse_where_go, hcc]
  simp only [exc_bind_ok]
  norm_num

/-- C5 (witness): the amended statement at the concrete mismatch
`u.age = "thirty"`. -/
theorem C5_two_distinct_labels_witness :
    parse_where_go [exUAge] none [] [] []
      [⟨.column ⟨some "u", "age"⟩, "=", .literal (.str "thirty")⟩]
      = .error (.typeMismatch ["int", "str"]) :=
  (C5_two_distinct_labels_fail_with_TypeMismatch [exUAge] none [] [] [] []
    ⟨.column ⟨some "u", "age"⟩, "=", .literal (.str "thirty")⟩ "int" "str"
    rfl rfl (by decide)).1

/-- C9: a WHERE condition whose two sides are both literals (with equal
type labels, so the type check passes) has no well-defined bucket: it
references no table alias; when no column reference has been resolved
before it, classification stops with the unbound-local error for the
loop variable `table` (so in particular as the first condition of the
WHERE list); and when some table `t` was resolved earlier, the condition
is appended to `t`'s early bucket — a table it does not reference. -/
theorem C9_literal_only_condition_bucketing
    (tables : List Table) (early : List (String × List Condition))
    (late acc cs : List Condition) (c : Condition) (v w : Value)
    (hl : c.left = .literal v) (hr : c.right = .literal w)
    (hsame : literalTypeLabel v = literalTypeLabel w) :
    condAliases c = []
    ∧ parse_where_go tables none early late acc (c :: cs) = .error (.unboundLocal "table")
    ∧ (∀ t : Table, parse_where_go tables (some t) early late acc (c :: cs)
        = parse_where_go tables (some t) (addEarly early t.name c) late (acc ++ [c]) cs)
    ∧ (∀ sel fr, parse_where_clause ⟨sel, fr, c :: cs⟩ tables = .error (.unboundLocal "table")) := by
  obtain ⟨l, op, r⟩ := c
  simp only at hl hr
  subst hl; subst hr
  have hcc : ∀ lt : Option Table, classify_condition tables lt ⟨.literal v, op, .literal w⟩
      = .ok (⟨.literal v, op, .literal w⟩, [literalTypeLabel v], [], lt) := by
    intro lt
    rw [classify_condition]
    rw [hsame]
    simp only [classify_side, exc_bind_ok, addToSet, List.not_mem_nil, if_false,
      List.nil_append, List.mem_singleton]
    rw [if_pos hsame.symm, hsame]
  refine ⟨rfl, ?_, ?_, ?_⟩
  · rw [parse_where_go, hcc]
    rfl
  · intro t
    rw [parse_where_go, hcc]
    rfl
  · intro sel fr
    rw [parse_where_clause]
    rw [parse_where_go, hcc]
    rfl

/-- C9 (witness): the literal-only condition `1 = 2` as the first WHERE
condition stops classification with the unbound-local error. -/
theorem C9_literal_only_condition_witness :
    parse_where_go [exUAge] none [] [] [] [⟨.literal (.int 1), "=", .literal (.int 2)⟩]
      = .error (.unboundLocal "table") :=
  (C9_literal_only_condition_bucketing [exUAge] [] [] [] []
    ⟨.literal (.int 1), "=", .literal (.int 2)⟩ (.int 1) (.int 2) rfl rfl rfl).2.1

/-- C7: the output stream of `execute` always places the header before
every data row — its element list is either empty or a header followed
only by rows — and when SELECT resolution or WHERE classification fails,
`execute` produces no element at all and raises the wrapped error. -/
theorem C7_header_first_and_no_output_on_validation_failure (q : Query) (ts : List Table) :
    (∀ e, validate_and_coalesce_select q ts = .error e →
      execute q ts = ([], some (wrapClause "SELECT" e)))
    ∧ (∀ hdr q' e, validate_and_coalesce_select q ts = .ok (hdr, q') →
        parse_where_clause q' ts = .error e →
        execute q ts = ([], some (wrapClause "WHERE" e)))
    ∧ ((execute q ts).1 = []
        ∨ ∃ h rest, (execute q ts).1 = .header h :: rest ∧ ∀ x ∈ rest, ∃ r, x = .row r) := by
  cases hv : validate_and_coalesce_select q ts with
  | error e =>
    refine ⟨?_, ?_, ?_⟩
    · intro e' he'
      cases he'
      simp [execute, hv]
    · intro hdr q' e' h _
      cases h
    · left
      simp [execute, hv]
  | ok p =>
    obtain ⟨hdr, q'⟩ := p
    cases hp : parse_where_clause q' ts with
    | error e =>
      refine ⟨?_, ?_, ?_⟩
      · intro e' he'
        cases he'
      · intro hdr2 q2 e' h2 hp2
        cases h2
        rw [hp] at hp2
        cases hp2
        simp [execute, hv, hp]
      · left
        simp [execute, hv, hp]
    | ok triple =>
      obtain ⟨early, late, ann⟩ := triple
      refine ⟨?_, ?_, ?_⟩
      · intro e' he'
        cases he'
      · intro hdr2 q2 e' h2 hp2
        cases h2
        rw [hp] at hp2
        cases hp2
      · right
        cases hf : filter_tables ts early with
        | error e =>
          exact ⟨hdr, [], by simp [execute, hv, hp, hf], by simp⟩
        | ok tablesRows =>
          refine ⟨hdr,
            (produce_rows q' (TableFilter.build late)
              ((itertools_product tablesRows).map joinRows)).1.map .row,
            by simp [execute, hv, hp, hf], ?_⟩
          intro x hx
          simp only [List.mem_map] at hx
          obtain ⟨r, _, hr⟩ := hx
          exact ⟨r, hr.symm⟩

/-- Successful SELECT validation only annotates the select list: the
FROM and WHERE parts of the query pass through unchanged. -/
theorem validate_preserves_from_where (q : Query) (ts : List Table)
    (hdr : List (String × String)) (q' : Query)
    (hv : validate_and_coalesce_select q ts = .ok (hdr, q')) :
    q'.«where» = q.«where» ∧ q'.«from» = q.«from» := by
  rw [validate_and_coalesce_select] at hv
  cases hgo : validate_select_go ts q.«from» q.select with
  | error e =>
    rw [hgo] at hv
    cases hv
  | ok p =>
    rw [hgo] at hv
    simp only [exc_bind_ok, exc_pure_eq, Except.ok.injEq, Prod.mk.injEq] at hv
    obtain ⟨h1, h2⟩ := hv
    subst h2
    exact ⟨rfl, rfl⟩

/-- With no early bucket at all, every table joins unfiltered. -/
theorem filter_tables_nil_early (ts : List Table) :
    filter_tables ts [] = .ok (ts.map (·.rows)) := by
  induction ts with
  | nil => rfl
  | cons t ts ih =>
    rw [filter_tables]
    simp only [lookupEarly, List.find?_nil, Option.map_none, ih, exc_bind_ok, exc_pure_eq]
    rfl

/-- With no late condition, the post-join loop degenerates to plain
projection of every joined row. -/
theorem produce_rows_nil_conds (q : Query) (js : List Row) :
    produce_rows q [] js = project_rows q js := by
  induction js with
  | nil => rfl
  | cons j js ih =>
    have hc : TableFilter.call ([] : List String) j = .ok true := rfl
    rw [produce_rows, project_rows, hc]
    cases hev : evaluate_select j q with
    | error e => rfl
    | ok vals => rw [ih]

/-- C10: a predicate evaluator built from no conditions matches every
row (the empty conjunction), so a query with an empty WHERE list has an
empty late list and no early bucket: every table is joined unfiltered
and every joined row passes straight through to projection. -/
theorem C10_empty_condition_list_matches_every_row (q : Query) (ts : List Table)
    (hdr : List (String × String)) (q' : Query)
    (hw : q.«where» = [])
    (hv : validate_and_coalesce_select q ts = .ok (hdr, q')) :
    (∀ row : Row, TableFilter.call (TableFilter.build []) row = .ok true)
    ∧ parse_where_clause q' ts = .ok ([], [], [])
    ∧ execute q ts
      = (.header hdr ::
          (project_rows q' ((itertools_product (ts.map (·.rows))).map joinRows)).1.map .row,
         (project_rows q' ((itertools_product (ts.map (·.rows))).map joinRows)).2) := by
  have hw' : q'.«where» = [] := (validate_preserves_from_where q ts hdr q' hv).1.trans hw
  have hp : parse_where_clause q' ts = .ok ([], [], []) := by
    rw [parse_where_clause, hw']
    rfl
  refine ⟨fun row => rfl, hp, ?_⟩
  have hb : TableFilter.build [] = ([] : List String) := rfl
  simp only [execute, hv, hp, filter_tables_nil_early, hb, produce_rows_nil_conds]

/-- C10 (witness): scenario 1's tables with the WHERE clause removed:
every cross-join row is projected. -/
theorem C10_empty_condition_list_witness :
    parse_where_clause exQNoWhereAnn [exU, exO] = .ok ([], [], []) :=
  (C10_empty_condition_list_matches_every_row exQNoWhere [exU, exO]
    [("name", "str"), ("id", "int")] exQNoWhereAnn rfl rfl).2.1

/-- A successfully resolved unqualified column comes from the table
list, and its table declares the column. -/
theorem get_table_for_field_spec (f : String) (tables : List Table) (t : Table)
    (h : get_table_for_field f tables = .ok t) :
    t ∈ tables ∧ t.headers.any (fun p => p.1 == f) = true := by
  simp only [get_table_for_field] at h
  split at h
  · cases h
  · cases hf : tables.filter (fun tb => tb.headers.any (fun p => p.1 == f)) with
    | nil =>
      rw [hf] at h
      cases h
    | cons t0 rest =>
      rw [hf] at h
      cases h
      have hmem : t ∈ tables.filter (fun tb => tb.headers.any (fun p => p.1 == f)) := by
        rw [hf]
        exact List.mem_cons_self t rest
      refine ⟨List.mem_of_mem_filter hmem, ?_⟩
      simpa using List.of_mem_filter hmem

/-- A successfully resolved WHERE column reference resolves to a member
of the table list; when the reference was already qualified (truthy),
the qualifier equals the resolved table's name. -/
theorem resolve_table_spec (tables : List Table) (ref : ColumnRef) (t : Table)
    (h : resolve_table tables ref = .ok t) :
    t ∈ tables ∧ (truthy ref.table = true → ref.table = some t.name) := by
  rw [resolve_table] at h
  by_cases ht : truthy ref.table
  · rw [if_pos ht] at h
    cases hf : tables.filter (fun tb => tb.name == ref.table.getD "") with
    | nil =>
      rw [hf] at h
      cases h
    | cons t0 rest =>
      rw [hf] at h
      cases h
      have hmem : t ∈ tables.filter (fun tb => tb.name == ref.table.getD "") := by
        rw [hf]
        exact List.mem_cons_self t rest
      refine ⟨List.mem_of_mem_filter hmem, fun _ => ?_⟩
      have hname : t.name = ref.table.getD "" := by
        have := List.of_mem_filter hmem
        exact eq_of_beq this
      cases href : ref.table with
      | none =>
        rw [href] at ht
        simp [truthy] at ht
      | some s =>
        rw [href] at hname
        simp only [Option.getD] at hname
        rw [hname]
  · rw [if_neg ht] at h
    exact ⟨(get_table_for_field_spec ref.name tables t h).1, fun hc => absurd hc ht⟩

/-- Full characterization of a successfully classified condition side:
the involvement set is the side's alias contribution; a literal passes
through annotating nothing and adds its runtime label; a column side is
annotated with a resolved member table, adds the column's declared type,
the table's alias, and replaces the threaded loop variable. -/
theorem classify_side_spec (tables : List Table) (ty inv : List String) (lt : Option Table)
    (e e' : Expr) (ty' inv' : List String) (lt' : Option Table)
    (h : classify_side tables ty inv lt e = .ok (e', ty', inv', lt')) :
    inv' = exprAliases e' inv
    ∧ ((∃ v, e = .literal v ∧ e' = .literal v
          ∧ ty' = addToSet (literalTypeLabel v) ty ∧ lt' = lt ∧ inv' = inv)
      ∨ (∃ ref t htype, e = .column ref
          ∧ e' = .column { ref with table := some t.name }
          ∧ t ∈ tables ∧ lt' = some t
          ∧ t.headers.find? (fun p => p.1 == ref.name) = some (ref.name, htype)
          ∧ ty' = addToSet htype ty ∧ inv' = addToSet t.name inv)) := by
  cases e with
  | literal v =>
    rw [classify_side] at h
    simp only [Except.ok.injEq, Prod.mk.injEq] at h
    obtain ⟨h1, h2, h3, h4⟩ := h
    subst h1; subst h2; subst h3; subst h4
    exact ⟨rfl, .inl ⟨v, rfl, rfl, rfl, rfl, rfl⟩⟩
  | column ref =>
    rw [classify_side] at h
    cases hres : resolve_table tables ref with
    | error err =>
      rw [hres] at h
      cases h
    | ok t =>
      rw [hres] at h
      simp only [exc_bind_ok] at h
      cases hfind : t.headers.find? (fun p => p.1 == ref.name) with
      | none =>
        rw [hfind] at h
        cases h
      | some pr =>
        rw [hfind] at h
        simp only [Except.ok.injEq, Prod.mk.injEq] at h
        obtain ⟨h1, h2, h3, h4⟩ := h
        obtain ⟨hmem, htruthy⟩ := resolve_table_spec tables ref t hres
        have hprname : pr.1 = ref.name := by
          have := List.find?_some hfind
          exact eq_of_beq this
        have hann : (if truthy ref.table then ref else { ref with table := some t.name })
            = { ref with table := some t.name } := by
          by_cases htr : truthy ref.table
          · rw [if_pos htr]
            have := htruthy htr
            cases ref with
            | mk rt rn =>
              simp only at this
              rw [this]
          · rw [if_neg htr]
        rw [hann] at h1
        subst h1; subst h2; subst h3; subst h4
        refine ⟨rfl, .inr ⟨ref, t, pr.2, rfl, rfl, hmem, rfl, ?_, rfl, rfl⟩⟩
        rw [hfind]
        rw [← hprname]

/-- A successfully classified condition: the involvement set is exactly
the annotated condition's alias set, the operator is unchanged, and the
two sides classified in sequence from empty sets. -/
theorem classify_condition_spec (tables : List Table) (lt : Option Table) (c c' : Condition)
    (ty inv : List String) (lt' : Option Table)
    (h : classify_condition tables lt c = .ok (c', ty, inv, lt')) :
    inv = condAliases c'
    ∧ c'.op = c.op
    ∧ (∃ ty1 inv1 lt1,
        classify_side tables [] [] lt c.left = .ok (c'.left, ty1, inv1, lt1)
        ∧ classify_side tables ty1 inv1 lt1 c.right = .ok (c'.right, ty, inv, lt')) := by
  rw [classify_condition] at h
  cases h1 : classify_side tables [] [] lt c.left with
  | error e =>
    rw [h1] at h
    cases h
  | ok p1 =>
    obtain ⟨l', ty1, inv1, lt1⟩ := p1
    rw [h1] at h
    simp only [exc_bind_ok] at h
    cases h2 : classify_side tables ty1 inv1 lt1 c.right with
    | error e =>
      rw [h2] at h
      cases h
    | ok p2 =>
      obtain ⟨r', ty2, inv2, lt2⟩ := p2
      rw [h2] at h
      simp only [exc_bind_ok, exc_pure_eq, Except.ok.injEq, Prod.mk.injEq] at h
      obtain ⟨hc, hty, hinv, hlt⟩ := h
      subst hc; subst hty; subst hinv; subst hlt
      have s1 := classify_side_spec tables [] [] lt c.left l' ty1 inv1 lt1 h1
      have s2 := classify_side_spec tables ty1 inv1 lt1 c.right r' ty2 inv2 lt2 h2
      refine ⟨?_, rfl, ty1, inv1, lt1, rfl, h2⟩
      rw [s2.1, s1.1]
      rfl

/-- The appended condition lands in its keyed bucket. -/
theorem addEarly_mem_self (early : List (String × List Condition)) (a : String)
    (c : Condition) : ∃ l, (a, l) ∈ addEarly early a c ∧ c ∈ l := by
  rw [addEarly]
  by_cases h : early.any (fun p => p.1 == a)
  · rw [if_pos h]
    obtain ⟨p, hp, hpa⟩ := List.any_eq_true.mp h
    have hpa' : p.1 = a := eq_of_beq hpa
    refine ⟨p.2 ++ [c], ?_, by simp⟩
    have : (if p.1 == a then (p.1, p.2 ++ [c]) else p) ∈
        early.map (fun q => if q.1 == a then (q.1, q.2 ++ [c]) else q) :=
      List.mem_map_of_mem _ hp
    rw [if_pos hpa] at this
    rw [hpa'] at this
    exact this
  · rw [if_neg h]
    exact ⟨[c], by simp, by simp⟩

/-- Bucket membership is preserved by later appends. -/
theorem addEarly_mem_mono (early : List (String × List Condition)) (a : String)
    (c : Condition) (b : String) (d : Condition)
    (h : ∃ l, (b, l) ∈ early ∧ d ∈ l) :
    ∃ l', (b, l') ∈ addEarly early a c ∧ d ∈ l' := by
  obtain ⟨l, hl, hd⟩ := h
  rw [addEarly]
  by_cases hany : early.any (fun p => p.1 == a)
  · rw [if_pos hany]
    by_cases hb : b = a
    · refine ⟨l ++ [c], ?_, by simp [hd]⟩
      have : (if (b, l).1 == a then ((b, l).1, (b, l).2 ++ [c]) else (b, l)) ∈
          early.map (fun q => if q.1 == a then (q.1, q.2 ++ [c]) else q) :=
        List.mem_map_of_mem _ hl
      simp only [hb] at this ⊢
      rw [if_pos (by simp)] at this
      exact this
    · refine ⟨l, ?_, hd⟩
      have : (if (b, l).1 == a then ((b, l).1, (b, l).2 ++ [c]) else (b, l)) ∈
          early.map (fun q => if q.1 == a then (q.1, q.2 ++ [c]) else q) :=
        List.mem_map_of_mem _ hl
      rw [if_neg (by simpa using hb)] at this
      exact this
  · rw [if_neg hany]
    exact ⟨l, List.mem_append_left _ hl, hd⟩

/-- Every bucket entry after an append was there before, or is the
appended condition in the appended key's bucket. -/
theorem addEarly_mem_inv (early : List (String × List Condition)) (a : String)
    (c : Condition) (p : String × List Condition) (hp : p ∈ addEarly early a c)
    (d : Condition) (hd : d ∈ p.2) :
    (∃ l0, (p.1, l0) ∈ early ∧ d ∈ l0) ∨ (p.1 = a ∧ d = c) := by
  rw [addEarly] at hp
  by_cases hany : early.any (fun q => q.1 == a)
  · rw [if_pos hany] at hp
    obtain ⟨q, hq, hqe⟩ := List.mem_map.mp hp
    by_cases hqa : q.1 == a
    · rw [if_pos hqa] at hqe
      subst hqe
      simp only at hd
      rcases List.mem_append.mp hd with hmem | hmem
      · exact .inl ⟨q.2, by cases q with | mk q1 q2 => exact hq, hmem⟩
      · exact .inr ⟨eq_of_beq hqa, List.mem_singleton.mp hmem⟩
    · rw [if_neg hqa] at hqe
      subst hqe
      exact .inl ⟨q.2, by cases q with | mk q1 q2 => exact hq, hd⟩
  · rw [if_neg hany] at hp
    rcases List.mem_append.mp hp with hmem | hmem
    · exact .inl ⟨p.2, by cases p with | mk p1 p2 => exact hmem, hd⟩
    · rw [List.mem_singleton.mp hmem] at hd ⊢
      exact .inr ⟨rfl, List.mem_singleton.mp hd⟩


/-- The element added to a set is in the result. -/
theorem mem_addToSet_self (x : String) (s : List String) : x ∈ addToSet x s := by
  rw [addToSet]
  by_cases h : x ∈ s
  · rwa [if_pos h]
  · rw [if_neg h]
    simp

/-- When a condition's involvement set is the singleton `[x]`, the
loop variable ends on a table named `x` (the condition's own last
column side). -/
theorem classify_condition_single_alias (tables : List Table) (lt : Option Table)
    (c c' : Condition) (types : List String) (x : String) (lt2 : Option Table)
    (h : classify_condition tables lt c = .ok (c', types, [x], lt2)) :
    ∃ t, lt2 = some t ∧ t.name = x := by
  obtain ⟨_, _, ty1, inv1, lt1, h1, h2⟩ :=
    classify_condition_spec tables lt c c' types [x] lt2 h
  have s1 := classify_side_spec tables [] [] lt c.left c'.left ty1 inv1 lt1 h1
  have s2 := classify_side_spec tables ty1 inv1 lt1 c.right c'.right types [x] lt2 h2
  rcases s2.2 with ⟨v, _, _, _, hlt2, hinv2⟩ | ⟨ref, t, htype, _, _, _, hlt2, _, _, hinv2⟩
  · rcases s1.2 with ⟨w, _, _, _, hlt1, hinv1⟩ | ⟨refL, tL, htypeL, _, _, _, hlt1, _, _, hinv1⟩
    · exact absurd (hinv2.trans hinv1) (by simp)
    · refine ⟨tL, by rw [hlt2, hlt1], ?_⟩
      have hsing : addToSet tL.name [] = [x] := by
        rw [← hinv1]
        exact hinv2.symm
      have hx : tL.name ∈ addToSet tL.name [] := mem_addToSet_self tL.name []
      rw [hsing] at hx
      exact List.mem_singleton.mp hx
  · refine ⟨t, hlt2, ?_⟩
    have hx : t.name ∈ addToSet t.name inv1 := mem_addToSet_self t.name inv1
    rw [← hinv2] at hx
    exact List.mem_singleton.mp hx

/-- The classification loop's invariants: late conditions reference at
least two aliases; bucket conditions reference exactly their bucket's
alias or no alias at all; bucket and late membership are monotone; and
every processed condition is placed in the late list or in some bucket
according to its alias count. -/
theorem parse_where_go_inv (tables : List Table) :
    ∀ (conds : List Condition) (lt : Option Table) (early : List (String × List Condition))
      (late acc : List Condition) (early' : List (String × List Condition))
      (late' acc' : List Condition),
    parse_where_go tables lt early late acc conds = .ok (early', late', acc') →
    (∀ c ∈ late', c ∈ late ∨ 2 ≤ (condAliases c).length)
    ∧ (∀ p ∈ early', ∀ c ∈ p.2,
        (∃ l0, (p.1, l0) ∈ early ∧ c ∈ l0) ∨ condAliases c = [p.1] ∨ condAliases c = [])
    ∧ (∀ a c, (∃ l, (a, l) ∈ early ∧ c ∈ l) → ∃ l', (a, l') ∈ early' ∧ c ∈ l')
    ∧ (∀ c ∈ late, c ∈ late')
    ∧ (∀ c ∈ acc', c ∈ acc
        ∨ (2 ≤ (condAliases c).length ∧ c ∈ late')
        ∨ (∃ a l', (a, l') ∈ early' ∧ c ∈ l'
            ∧ (condAliases c = [a] ∨ condAliases c = []))) := by
  intro conds
  induction conds with
  | nil =>
    intro lt early late acc early' late' acc' h
    rw [parse_where_go] at h
    simp only [Except.ok.injEq, Prod.mk.injEq] at h
    obtain ⟨h1, h2, h3⟩ := h
    subst h1; subst h2; subst h3
    exact ⟨fun c hc => .inl hc,
      fun p hp c hc => .inl ⟨p.2, by cases p; exact hp, hc⟩,
      fun a c hc => hc, fun c hc => hc, fun c hc => .inl hc⟩
  | cons c cs ih =>
    intro lt early late acc early' late' acc' h
    rw [parse_where_go] at h
    cases hcc : classify_condition tables lt c with
    | error e =>
      rw [hcc] at h
      cases h
    | ok quad =>
      obtain ⟨c', types, involved, lt2⟩ := quad
      rw [hcc] at h
      simp only [exc_bind_ok] at h
      have hinv := (classify_condition_spec tables lt c c' types involved lt2 hcc).1
      by_cases hty : types.length > 1
      · rw [if_pos hty] at h
        cases h
      · rw [if_neg hty] at h
        by_cases hni : involved.length > 1
        · rw [if_pos hni] at h
          obtain ⟨hl1, hl2, hl3, hl4, hl5⟩ :=
            ih lt2 early (late ++ [c']) (acc ++ [c']) early' late' acc' h
          refine ⟨?_, hl2, hl3, ?_, ?_⟩
          · intro d hd
            rcases hl1 d hd with hmem | hlen
            · rcases List.mem_append.mp hmem with hmem2 | hmem2
              · exact .inl hmem2
              · rw [List.mem_singleton.mp hmem2, ← hinv]
                exact .inr (by omega)
            · exact .inr hlen
          · intro d hd
            exact hl4 d (List.mem_append_left _ hd)
          · intro d hd
            rcases hl5 d hd with hmem | hrest
            · rcases List.mem_append.mp hmem with hmem2 | hmem2
              · exact .inl hmem2
              · rw [List.mem_singleton.mp hmem2]
                refine .inr (.inl ⟨by rw [← hinv]; omega, ?_⟩)
                exact hl4 c' (List.mem_append_right _ (List.mem_singleton_self c'))
            · exact .inr hrest
        · rw [if_neg hni] at h
          cases lt2 with
          | none => cases h
          | some t =>
            obtain ⟨hl1, hl2, hl3, hl4, hl5⟩ :=
              ih (some t) (addEarly early t.name c') late (acc ++ [c']) early' late' acc' h
            have haliases : condAliases c' = [t.name] ∨ condAliases c' = [] := by
              rw [← hinv]
              match hi : involved with
              | [] => exact .inr rfl
              | [x] =>
                left
                obtain ⟨t', hlt', hname⟩ :=
                  classify_condition_single_alias tables lt c c' types x (some t) hcc
                cases hlt'
                rw [hname]
              | x :: y :: rest =>
                simp at hni
            refine ⟨hl1, ?_, ?_, hl4, ?_⟩
            · intro p hp d hd
              rcases hl2 p hp d hd with ⟨l0, hl0, hdl0⟩ | hrest
              · rcases addEarly_mem_inv early t.name c' (p.1, l0) hl0 d hdl0 with hbase | ⟨hkey, hdc⟩
                · exact .inl hbase
                · rw [hdc]
                  simp only at hkey
                  rw [hkey]
                  exact .inr haliases
              · exact .inr hrest
            · intro a d hmem
              exact hl3 a d (addEarly_mem_mono early t.name c' a d hmem)
            · intro d hd
              rcases hl5 d hd with hmem | hrest
              · rcases List.mem_append.mp hmem with hmem2 | hmem2
                · exact .inl hmem2
                · rw [List.mem_singleton.mp hmem2]
                  obtain ⟨l, hlmem, hcl⟩ := addEarly_mem_self early t.name c'
                  obtain ⟨l', hl'mem, hcl'⟩ := hl3 t.name c' ⟨l, hlmem, hcl⟩
                  exact .inr (.inr ⟨t.name, l', hl'mem, hcl', haliases⟩)
              · exact .inr hrest

/-- C6: among the conditions processed by `parse_where_clause`, one that
references more than one distinct table alias is in the late list and in
no early bucket, and one that references exactly one alias `a` is in the
early bucket keyed by `a`, is not in the late list, and is in no bucket
keyed otherwise — every early-classified condition references exactly
its bucket's alias (or no alias at all, see C9). -/
theorem C6_single_alias_early_multi_alias_late
    (q : Query) (ts : List Table)
    (early : List (String × List Condition)) (late ann : List Condition)
    (hp : parse_where_clause q ts = .ok (early, late, ann))
    (c : Condition) (hc : c ∈ ann) :
    (2 ≤ (condAliases c).length → c ∈ late ∧ ∀ p ∈ early, c ∉ p.2)
    ∧ (∀ a, condAliases c = [a] →
        (∃ l, (a, l) ∈ early ∧ c ∈ l) ∧ c ∉ late ∧ ∀ p ∈ early, c ∈ p.2 → p.1 = a) := by
  rw [parse_where_clause] at hp
  obtain ⟨hl1, hl2, _, _, hl5⟩ :=
    parse_where_go_inv ts q.«where» none [] [] [] early late ann hp
  constructor
  · intro hlen
    constructor
    · rcases hl5 c hc with hmem | ⟨_, hlate⟩ | ⟨a, l', _, _, halias | halias⟩
      · cases hmem
      · exact hlate
      · rw [halias] at hlen
        simp at hlen
      · rw [halias] at hlen
        simp at hlen
    · intro p hp' hcp
      rcases hl2 p hp' c hcp with ⟨l0, hl0, _⟩ | halias | halias
      · cases hl0
      · rw [halias] at hlen
        simp at hlen
      · rw [halias] at hlen
        simp at hlen
  · intro a ha
    refine ⟨?_, ?_, ?_⟩
    · rcases hl5 c hc with hmem | ⟨hlen, _⟩ | ⟨b, l', hbl, hcl, halias | halias⟩
      · cases hmem
      · rw [ha] at hlen
        simp at hlen
      · rw [ha] at halias
        cases halias
        exact ⟨l', hbl, hcl⟩
      · rw [ha] at halias
        cases halias
    · intro hlate
      rcases hl1 c hlate with hmem | hlen
      · cases hmem
      · rw [ha] at hlen
        simp at hlen
    · intro p hp' hcp
      rcases hl2 p hp' c hcp with ⟨l0, hl0, _⟩ | halias | halias
      · cases hl0
      · rw [ha] at halias
        exact (List.cons.injEq _ _ _ _ ▸ halias).1.symm ▸ rfl
      · rw [ha] at halias
        cases halias

/-- C6 (witness): scenario 1's two-table condition `u.id = o.user_id`
(annotated) references the two aliases `u` and `o`: it is classified
late and appears in no early bucket. -/
theorem C6_single_alias_witness :
    exQ1CondAnn ∈ [exQ1CondAnn]
    ∧ ∀ p ∈ ([] : List (String × List Condition)), exQ1CondAnn ∉ p.2 :=
  (C6_single_alias_early_multi_alias_late exQ1 [exU, exO] [] [exQ1CondAnn] [exQ1CondAnn]
    rfl exQ1CondAnn (List.mem_singleton_self exQ1CondAnn)).1 (by decide)

/-- A digit character differs from any non-digit character. -/
theorem ne_of_isDigit_of_not (c x : Char) (h : c.isDigit = true)
    (hx : x.isDigit = false) : c ≠ x := by
  intro he
  subst he
  rw [h] at hx
  cases hx

/-- Every character `digitChar` produces is a decimal digit. -/
theorem digitChar_isDigit (d : Nat) : (digitChar d).isDigit = true := by
  match d with
  | 0 | 1 | 2 | 3 | 4 | 5 | 6 | 7 | 8 => decide
  | n + 9 =>
    show ('9').isDigit = true
    decide

/-- The numeric value `parseNatChars` reads back from `digitChar`. -/
theorem digitChar_val (d : Nat) (hd : d < 10) : (digitChar d).toNat - 48 = d := by
  interval_cases d <;> decide

/-- The digit string of a natural number is non-empty and all digits. -/
theorem natDigits_spec (n : Nat) :
    natDigits n ≠ [] ∧ ∀ c ∈ natDigits n, c.isDigit = true := by
  induction n using Nat.strong_induction_on with
  | _ n ih =>
    rw [natDigits]
    by_cases h : n < 10
    · rw [dif_pos h]
      exact ⟨by simp, by simp [digitChar_isDigit]⟩
    · rw [dif_neg h]
      have hlt : n / 10 < n := Nat.div_lt_self (by omega) (by omega)
      obtain ⟨hne, hall⟩ := ih (n / 10) hlt
      refine ⟨by simp [hne], ?_⟩
      intro c hc
      rcases List.mem_append.mp hc with hc1 | hc1
      · exact hall c hc1
      · rw [List.mem_singleton.mp hc1]
        exact digitChar_isDigit _

/-- Folding one more digit scales the accumulated value by ten. -/
theorem parseNatChars_append_singleton (l : List Char) (c : Char) :
    parseNatChars (l ++ [c]) = parseNatChars l * 10 + (c.toNat - 48) := by
  simp [parseNatChars, List.foldl_append]

/-- Parsing the printed digits of a natural number recovers it. -/
theorem parseNatChars_natDigits (n : Nat) : parseNatChars (natDigits n) = n := by
  induction n using Nat.strong_induction_on with
  | _ n ih =>
    rw [natDigits]
    by_cases h : n < 10
    · rw [dif_pos h]
      show parseNatChars ([] ++ [digitChar n]) = n
      rw [parseNatChars_append_singleton]
      simp [parseNatChars, digitChar_val n h]
    · rw [dif_neg h]
      have hlt : n / 10 < n := Nat.div_lt_self (by omega) (by omega)
      rw [parseNatChars_append_singleton, ih (n / 10) hlt,
        digitChar_val (n % 10) (Nat.mod_lt n (by omega))]
      omega

/-- `scanDigits` splits a digit prefix followed by a non-digit (or
nothing) exactly at the boundary. -/
theorem scanDigits_append (ds rest : List Char)
    (hds : ∀ c ∈ ds, c.isDigit = true)
    (hrest : ∀ c, rest.head? = some c → c.isDigit = false) :
    scanDigits (ds ++ rest) = (ds, rest) := by
  induction ds with
  | nil =>
    cases rest with
    | nil => rfl
    | cons c r =>
      rw [List.nil_append, scanDigits]
      rw [if_neg (by rw [hrest c rfl]; simp)]
  | cons d ds ih =>
    rw [List.cons_append, scanDigits, if_pos (hds d (by simp)),
      ih (fun c hc => hds c (by simp [hc]))]

/-- `scanStr` reads a quote-free, backslash-free body up to its closing
quote. -/
theorem scanStr_append (l rest : List Char) (hq : '\'' ∉ l) (hb : '\\' ∉ l) :
    scanStr (l ++ '\'' :: rest) = some (l, rest) := by
  induction l with
  | nil =>
    rw [List.nil_append, scanStr.eq_def]
    simp
  | cons c cs ih =>
    have h1 : ¬ c = '\'' := fun he => hq (he ▸ List.mem_cons_self c cs)
    have h2 : ¬ c = '\\' := fun he => hb (he ▸ List.mem_cons_self c cs)
    rw [List.cons_append, scanStr.eq_def]
    simp only [h1, h2, if_false]
    rw [ih (fun hm => hq (List.mem_cons_of_mem c hm)) (fun hm => hb (List.mem_cons_of_mem c hm))]
    rfl

/-- `scanUntilDQ` reads a double-quote-free body up to the closing
double quote. -/
theorem scanUntilDQ_append (l rest : List Char) (hq : '"' ∉ l) :
    scanUntilDQ (l ++ '"' :: rest) = some (l, rest) := by
  induction l with
  | nil =>
    rw [List.nil_append, scanUntilDQ, if_pos rfl]
  | cons c cs ih =>
    rw [List.cons_append, scanUntilDQ,
      if_neg (by intro he; exact hq (he ▸ List.mem_cons_self c cs)),
      ih (fun hm => hq (List.mem_cons_of_mem c hm))]
    rfl


/-- A list starting with anything but `r` is not the subscript prefix. -/
theorem take5_ne_row (c : Char) (l : List Char) (hc : ¬ c = 'r') :
    ¬ ((c :: l).take 5 = ['r', 'o', 'w', '[', '"']) := by
  intro h
  rw [List.take_succ_cons] at h
  injection h with h1 _
  exact hc h1



/-- The Python lexer's view of one compiled condition side: parsing the
generated expression text (followed by anything not starting with a
digit) yields exactly the corresponding term and leaves the rest. -/
theorem parseTerm_expression (e : Expr) (rest : List Char)
    (hclean : sideClean e)
    (hrest : ∀ c, rest.head? = some c → c.isDigit = false) :
    parseTerm ((TableFilter.expression e).data ++ rest) = some (termOf e, rest) := by
  cases e with
  | literal v =>
    cases v with
    | str s =>
      obtain ⟨hq, hb⟩ := hclean
      have hdata : (TableFilter.expression (.literal (.str s))).data ++ rest
          = '\'' :: (s.data ++ '\'' :: rest) := by
        show (("'" ++ s ++ "'").data) ++ rest = _
        rw [String.data_append, String.data_append]
        simp
      rw [hdata, parseTerm.eq_def]
      simp only [if_true]
      rw [scanStr_append s.data rest hq hb]
      rfl
    | int n =>
      rw [show TableFilter.expression (.literal (.int n)) = pyStrInt n from rfl]
      by_cases hneg : n < 0
      · rw [pyStrInt, if_pos hneg]
        obtain ⟨hne, hall⟩ := natDigits_spec n.natAbs
        cases hd : natDigits n.natAbs with
        | nil => exact absurd hd hne
        | cons d ds =>
          have hdata : ("-" ++ pyStrNat n.natAbs).data ++ rest
              = '-' :: (d :: (ds ++ rest)) := by
            rw [String.data_append]
            show ('-' :: (pyStrNat n.natAbs).data) ++ rest = _
            rw [show (pyStrNat n.natAbs).data = natDigits n.natAbs from rfl, hd]
            rfl
          have hds : ∀ c ∈ d :: ds, c.isDigit = true := by
            intro c hc
            exact hall c (by rw [hd]; exact hc)
          rw [hdata, parseTerm.eq_def]
          simp only []
          rw [if_neg (by decide),
            if_neg (take5_ne_row '-' (d :: (ds ++ rest)) (by decide))]
          simp only [if_true, hds d (by simp)]
          rw [← List.cons_append, scanDigits_append (d :: ds) rest hds hrest,
            ← hd, parseNatChars_natDigits]
          have habs : ((n.natAbs : Int)) = -n := by omega
          rw [habs]
          simp [termOf]
      · rw [pyStrInt, if_neg hneg]
        obtain ⟨hne, hall⟩ := natDigits_spec n.toNat
        cases hd : natDigits n.toNat with
        | nil => exact absurd hd hne
        | cons d ds =>
          have hdata : (pyStrNat n.toNat).data ++ rest = (d :: ds) ++ rest := by
            rw [show (pyStrNat n.toNat).data = natDigits n.toNat from rfl, hd]
          have hds : ∀ c ∈ d :: ds, c.isDigit = true := by
            intro c hc
            exact hall c (by rw [hd]; exact hc)
          have hddig := hds d (by simp)
          rw [hdata, List.cons_append, parseTerm.eq_def]
          simp only []
          rw [if_neg (ne_of_isDigit_of_not d '\'' hddig (by decide)),
            if_neg (take5_ne_row d (ds ++ rest) (ne_of_isDigit_of_not d 'r' hddig (by decide))),
            if_neg (ne_of_isDigit_of_not d '-' hddig (by decide))]
          simp only [hddig, if_true]
          rw [← List.cons_append, scanDigits_append (d :: ds) rest hds hrest,
            ← hd, parseNatChars_natDigits]
          have htn : ((n.toNat : Int)) = n := by omega
          rw [htn]
          simp [termOf]
  | column ref =>
    obtain ⟨hq, hb⟩ := hclean
    have hdata : (TableFilter.expression (.column ref)).data ++ rest
        = 'r' :: 'o' :: 'w' :: '[' :: '"' :: ((columnKey ref).data ++ '"' :: ']' :: rest) := by
      show (("row[\"" ++ columnKey ref ++ "\"]").data) ++ rest = _
      rw [String.data_append, String.data_append]
      simp
    rw [hdata, parseTerm.eq_def]
    simp only []
    rw [if_neg (by decide)]
    rw [if_pos (by simp [List.take])]
    have hdrop : ('r' :: 'o' :: 'w' :: '[' :: '"' ::
        ((columnKey ref).data ++ '"' :: ']' :: rest) : List Char).drop 5
        = (columnKey ref).data ++ '"' :: ']' :: rest := by
      simp [List.drop]
    rw [hdrop, scanUntilDQ_append (columnKey ref).data (']' :: rest) hq]
    rfl

/-- Bind on a `some` value steps to the continuation. -/
@[simp] theorem opt_bind_some {α β : Type _} (a : α) (f : α → Option β) :
    (some a : Option α) >>= f = f a := rfl

/-- Bind on `none` short-circuits. -/
@[simp] theorem opt_bind_none {α β : Type _} (f : α → Option β) :
    (none : Option α) >>= f = none := rfl

/-- `skipSpaces` is the identity on input not starting with a space. -/
theorem skipSpaces_no_space (l : List Char) (h : ∀ c, l.head? = some c → ¬ c = ' ') :
    skipSpaces l = l := by
  cases l with
  | nil => rfl
  | cons c cs =>
    rw [skipSpaces, if_neg (h c rfl)]

/-- `skipSpaces` consumes a leading space. -/
theorem skipSpaces_cons_space (l : List Char) : skipSpaces (' ' :: l) = skipSpaces l := by
  rw [skipSpaces, if_pos rfl]

/-- Generated expression text never starts with a space. -/
theorem expression_head_not_space (e : Expr) (r : List Char) (c : Char)
    (h : ((TableFilter.expression e).data ++ r).head? = some c) : ¬ c = ' ' := by
  cases e with
  | column ref =>
    have : ((TableFilter.expression (.column ref)).data ++ r).head? = some 'r' := by
      show ((("row[\"" ++ columnKey ref ++ "\"]").data) ++ r).head? = _
      rw [String.data_append, String.data_append]
      rfl
    rw [this] at h
    cases h
    decide
  | literal v =>
    cases v with
    | str s =>
      have : ((TableFilter.expression (.literal (.str s))).data ++ r).head? = some '\'' := by
        show ((("'" ++ s ++ "'").data) ++ r).head? = _
        rw [String.data_append, String.data_append]
        rfl
      rw [this] at h
      cases h
      decide
    | int n =>
      rw [show TableFilter.expression (.literal (.int n)) = pyStrInt n from rfl] at h
      by_cases hneg : n < 0
      · rw [pyStrInt, if_pos hneg] at h
        have : (("-" ++ pyStrNat n.natAbs).data ++ r).head? = some '-' := by
          rw [String.data_append]
          rfl
        rw [this] at h
        cases h
        decide
      · rw [pyStrInt, if_neg hneg] at h
        obtain ⟨hne, hall⟩ := natDigits_spec n.toNat
        cases hd : natDigits n.toNat with
        | nil => exact absurd hd hne
        | cons d ds =>
          have : ((pyStrNat n.toNat).data ++ r).head? = some d := by
            rw [show (pyStrNat n.toNat).data = natDigits n.toNat from rfl, hd]
            rfl
          rw [this] at h
          cases h
          exact ne_of_isDigit_of_not c ' ' (hall c (by rw [hd]; simp)) (by decide)

/-- Compiling `left op right` text (with one of the six Python
comparison operators) parses back to exactly that comparison. -/
theorem parseCond_parts (el er : Expr) (ops : String)
    (hl : sideClean el) (hr : sideClean er)
    (hops : ops = "==" ∨ ops = "!=" ∨ ops = "<" ∨ ops = "<=" ∨ ops = ">" ∨ ops = ">=") :
    parseCond (TableFilter.expression el ++ " " ++ ops ++ " " ++ TableFilter.expression er)
      = some ⟨termOf el, ops, termOf er⟩ := by
  have step : ∀ (opdata : List Char),
      (TableFilter.expression el ++ " " ++ ops ++ " " ++ TableFilter.expression er).data
        = (TableFilter.expression el).data ++ (' ' :: (opdata ++ (' ' ::
            ((TableFilter.expression er).data ++ [])))) →
      (∀ c, (opdata ++ (' ' :: ((TableFilter.expression er).data ++ []))).head? = some c
          → ¬ c = ' ') →
      parseOp (opdata ++ (' ' :: ((TableFilter.expression er).data ++ [])))
        = some (ops, ' ' :: ((TableFilter.expression er).data ++ [])) →
      parseCond (TableFilter.expression el ++ " " ++ ops ++ " " ++ TableFilter.expression er)
        = some ⟨termOf el, ops, termOf er⟩ := by
    intro opdata hdata hop1 hop2
    rw [parseCond, hdata]
    rw [skipSpaces_no_space _ (fun c hc => expression_head_not_space el _ c hc)]
    rw [parseTerm_expression el _ hl (by intro c hc; cases hc; decide)]
    simp only [opt_bind_some]
    rw [skipSpaces_cons_space, skipSpaces_no_space _ hop1, hop2]
    simp only [opt_bind_some]
    rw [skipSpaces_cons_space]
    rw [skipSpaces_no_space _ (fun c hc => expression_head_not_space er _ c hc)]
    rw [parseTerm_expression er _ hr (by intro c hc; cases hc)]
    simp only [opt_bind_some]
    rw [skipSpaces_no_space _ (by intro c hc; cases hc)]
    rfl
  rcases hops with h | h | h | h | h | h <;> subst h
  · exact step ['=', '='] (by simp [String.data_append]) (by intro c hc; cases hc; decide) rfl
  · exact step ['!', '='] (by simp [String.data_append]) (by intro c hc; cases hc; decide) rfl
  · exact step ['<'] (by simp [String.data_append]) (by intro c hc; cases hc; decide) rfl
  · exact step ['<', '='] (by simp [String.data_append]) (by intro c hc; cases hc; decide) rfl
  · exact step ['>'] (by simp [String.data_append]) (by intro c hc; cases hc; decide) rfl
  · exact step ['>', '='] (by simp [String.data_append]) (by intro c hc; cases hc; decide) rfl

/-- The compiled term of a side evaluates exactly as the direct value
accessor. -/
theorem evalTerm_termOf (row : Row) (e : Expr) :
    evalTerm row (termOf e) = direct_expression e row := by
  cases e with
  | literal v =>
    cases v with
    | int n => rfl
    | str s => rfl
  | column ref =>
    rw [termOf, evalTerm, direct_expression]

/-- The operator mapping sends each of the six query operators to a
Python comparison operator. -/
theorem OP_MAPPINGS_valid (op : String) (h : op ∈ validOps) :
    OP_MAPPINGS op = "==" ∨ OP_MAPPINGS op = "!=" ∨ OP_MAPPINGS op = "<"
    ∨ OP_MAPPINGS op = "<=" ∨ OP_MAPPINGS op = ">" ∨ OP_MAPPINGS op = ">=" := by
  simp only [validOps, List.mem_cons, List.not_mem_nil, or_false] at h
  rcases h with rfl | rfl | rfl | rfl | rfl | rfl <;> simp [OP_MAPPINGS]

/-- The bridge: `eval` of the text `TableFilter` builds for a clean,
validly-operated condition computes exactly the direct typed
evaluation of that condition. -/
theorem pyEval_build (c : Condition) (row : Row)
    (hop : c.op ∈ validOps) (hl : sideClean c.left) (hr : sideClean c.right) :
    pyEvalCondStr row (TableFilter.buildCondition c) = direct_condition c row := by
  have hparse : parseCond (TableFilter.buildCondition c)
      = some ⟨termOf c.left, OP_MAPPINGS c.op, termOf c.right⟩ := by
    rw [show TableFilter.buildCondition c = TableFilter.expression c.left ++ " "
      ++ OP_MAPPINGS c.op ++ " " ++ TableFilter.expression c.right from rfl]
    exact parseCond_parts c.left c.right (OP_MAPPINGS c.op) hl hr (OP_MAPPINGS_valid c.op hop)
  rw [pyEvalCondStr, hparse]
  show (do
      let a ← evalTerm row (termOf c.left)
      let b ← evalTerm row (termOf c.right)
      pyCompare (OP_MAPPINGS c.op) a b) = direct_condition c row
  rw [evalTerm_termOf, evalTerm_termOf]
  rfl

/-- The compiled filter agrees with the direct conjunction on every
condition list whose members are clean and validly operated. -/
theorem call_build_eq_direct (conds : List Condition) (row : Row)
    (h : ∀ c ∈ conds, c.op ∈ validOps ∧ sideClean c.left ∧ sideClean c.right) :
    TableFilter.call (TableFilter.build conds) row = direct_matches conds row := by
  induction conds with
  | nil => rfl
  | cons c cs ih =>
    obtain ⟨hop, hl, hr⟩ := h c (by simp)
    rw [show TableFilter.build (c :: cs) = TableFilter.buildCondition c :: TableFilter.build cs
      from rfl]
    rw [TableFilter.call, direct_matches, pyEval_build c row hop hl hr]
    cases direct_condition c row with
    | error e => rfl
    | ok b =>
      simp only [exc_bind_ok]
      cases b with
      | false => rfl
      | true => exact ih (fun d hd => h d (by simp [hd]))


/-- Distinct dot-free prefixes give distinct qualified keys (character
list form). -/
theorem dotfree_key_inj (la : List Char) : ∀ (lb : List Char) (xs ys : List Char),
    '.' ∉ la → '.' ∉ lb → la ++ '.' :: xs = lb ++ '.' :: ys → la = lb ∧ xs = ys := by
  induction la with
  | nil =>
    intro lb xs ys _ hb h
    cases lb with
    | nil =>
      simp only [List.nil_append] at h
      injection h with _ h2
      exact ⟨rfl, h2⟩
    | cons d lb' =>
      simp only [List.nil_append, List.cons_append] at h
      injection h with h1 _
      exact absurd (h1 ▸ List.mem_cons_self d lb') hb
  | cons c la' ih =>
    intro lb xs ys ha hb h
    cases lb with
    | nil =>
      simp only [List.nil_append, List.cons_append] at h
      injection h with h1 _
      exact absurd (h1.symm ▸ List.mem_cons_self c la') ha
    | cons d lb' =>
      simp only [List.cons_append] at h
      injection h with h1 h2
      obtain ⟨he, hx⟩ := ih lb' xs ys (fun hm => ha (List.mem_cons_of_mem c hm))
        (fun hm => hb (List.mem_cons_of_mem d hm)) h2
      exact ⟨by rw [h1, he], hx⟩

/-- Distinct dot-free table names give distinct qualified keys. -/
theorem key_ne_of_name_ne (a b x y : String) (ha : '.' ∉ a.data) (hb : '.' ∉ b.data)
    (hab : a ≠ b) : a ++ "." ++ x ≠ b ++ "." ++ y := by
  intro h
  have hdata : a.data ++ '.' :: x.data = b.data ++ '.' :: y.data := by
    have := congrArg String.data h
    rw [String.data_append, String.data_append, String.data_append, String.data_append] at this
    simpa using this
  obtain ⟨he, _⟩ := dotfree_key_inj a.data b.data x.data y.data ha hb hdata
  exact hab (String.ext he)

/-- Every binding of a row aligned with a schema is a qualified schema
column with a value of the declared type. -/
theorem keys_of_forall2 (name : String) (H : List (String × String)) (r : Row)
    (hrel : List.Forall₂ (fun (kv : String × Value) (h : String × String) =>
      kv.1 = name ++ "." ++ h.1 ∧ literalTypeLabel kv.2 = h.2) r H) :
    ∀ p ∈ r, ∃ h ∈ H, p.1 = name ++ "." ++ h.1 ∧ literalTypeLabel p.2 = h.2 := by
  induction hrel with
  | nil => intro p hp; cases hp
  | cons hph hrel ih =>
    intro p hp
    rcases List.mem_cons.mp hp with hp1 | hp1
    · subst hp1
      exact ⟨_, List.mem_cons_self _ _, hph.1, hph.2⟩
    · obtain ⟨h, hh, hk, hv⟩ := ih p hp1
      exact ⟨h, List.mem_cons_of_mem _ hh, hk, hv⟩

/-- Looking up a declared column in a schema-aligned row yields a value
of the declared type. -/
theorem lookup_of_forall2 (name : String) (H : List (String × String)) (r : Row)
    (hrel : List.Forall₂ (fun (kv : String × Value) (h : String × String) =>
      kv.1 = name ++ "." ++ h.1 ∧ literalTypeLabel kv.2 = h.2) r H) :
    ∀ (col ty : String), (H.map (·.1)).Nodup →
    H.find? (fun p => p.1 == col) = some (col, ty) →
    ∃ v, rowGet r (name ++ "." ++ col) = some v ∧ literalTypeLabel v = ty := by
  induction hrel with
  | nil =>
    intro col ty _ hfind
    rw [List.find?_nil] at hfind
    cases hfind
  | @cons kv h r' hs' hph hrel ih =>
    intro col ty hnodup hfind
    rw [List.find?_cons] at hfind
    by_cases hcol : h.1 == col
    · rw [hcol] at hfind
      injection hfind with hfind
      have hkey : kv.1 = name ++ "." ++ col := by
        rw [hph.1, show h.1 = col from eq_of_beq hcol]
      refine ⟨kv.2, ?_, by rw [hph.2, hfind]⟩
      have hkb : (kv.1 == name ++ "." ++ col) = true := by simp [hkey]
      rw [rowGet, List.find?_cons, hkb]
      rfl
    · have hcolf : (h.1 == col) = false := by simpa using hcol
      rw [hcolf] at hfind
      have hne : ¬ (kv.1 == name ++ "." ++ col) := by
        rw [hph.1]
        simp only [beq_iff_eq]
        intro he
        have hdata : name.data ++ '.' :: h.1.data = name.data ++ '.' :: col.data := by
          have := congrArg String.data he
          rw [String.data_append, String.data_append, String.data_append,
            String.data_append] at this
          simpa using this
        have h3 : h.1.data = col.data := by
          have h2 := List.append_cancel_left hdata
          injection h2
        exact hcol (by simp [String.ext h3])
      have hneb : (kv.1 == name ++ "." ++ col) = false := by simpa using hne
      rw [rowGet, List.find?_cons, hneb]
      have hnodup' : (hs'.map (·.1)).Nodup := by
        rw [List.map_cons] at hnodup
        exact hnodup.of_cons
      exact ih col ty hnodup' hfind

/-- Updating a dict with fresh, duplicate-free bindings is plain
concatenation. -/
theorem dictUpdate_eq_append (s : List (String × Value)) :
    ∀ (r : Row), (s.map (·.1)).Nodup →
    (∀ p ∈ s, ∀ q ∈ r, q.1 ≠ p.1) → dictUpdate r s = r ++ s := by
  induction s with
  | nil =>
    intro r _ _
    simp [dictUpdate]
  | cons p s' ih =>
    intro r hnodup hfresh
    have hcond : (r.any fun q => q.1 == p.1) = false := by
      simp only [List.any_eq_false, beq_iff_eq]
      intro q hq
      exact hfresh p (List.mem_cons_self p s') q hq
    have hstep : dictInsert r p.1 p.2 = r ++ [p] := by
      simp [dictInsert, hcond]
    rw [show dictUpdate r (p :: s') = dictUpdate (dictInsert r p.1 p.2) s' from rfl, hstep]
    rw [ih (r ++ [p]) (by rw [List.map_cons] at hnodup; exact hnodup.of_cons)]
    · simp
    · intro p2 hp2 q hq
      rcases List.mem_append.mp hq with hq1 | hq1
      · exact hfresh p2 (List.mem_cons_of_mem p hp2) q hq1
      · rw [List.mem_singleton.mp hq1]
        rw [List.map_cons] at hnodup
        intro he
        exact (List.nodup_cons.mp hnodup).1 (he ▸ List.mem_map_of_mem (·.1) hp2)

/-- Folding dict updates of key-disjoint rows over an accumulator with
fresh keys is plain concatenation. -/
theorem foldl_dictUpdate_append : ∀ (tuple : List Row) (acc : Row),
    (∀ r ∈ tuple, ((r : Row).map (·.1)).Nodup) →
    List.Pairwise (fun (ri rj : Row) => ∀ p ∈ ri, ∀ q ∈ rj, p.1 ≠ q.1) tuple →
    (∀ r ∈ tuple, ∀ p ∈ acc, ∀ q ∈ (r : Row), p.1 ≠ q.1) →
    tuple.foldl dictUpdate acc = acc ++ tuple.flatten := by
  intro tuple
  induction tuple with
  | nil =>
    intro acc _ _ _
    simp
  | cons r tuple' ih =>
    intro acc hnodup hdisj hacc
    rw [List.foldl_cons]
    rw [show dictUpdate acc r = acc ++ r from
      dictUpdate_eq_append r acc (hnodup r (by simp))
        (fun p hp q hq => hacc r (by simp) q hq p hp)]
    rw [ih (acc ++ r) (fun r' hr' => hnodup r' (by simp [hr']))
      (List.pairwise_cons.mp hdisj).2]
    · simp
    · intro r' hr' p hp q hq
      rcases List.mem_append.mp hp with hp1 | hp1
      · exact hacc r' (by simp [hr']) p hp1 q hq
      · exact (List.pairwise_cons.mp hdisj).1 r' hr' p hp1 q hq

/-- Merging pairwise-key-disjoint rows is their concatenation. -/
theorem joinRows_eq_flatten (tuple : List Row)
    (hnodup : ∀ r ∈ tuple, ((r : Row).map (·.1)).Nodup)
    (hdisj : List.Pairwise (fun (ri rj : Row) => ∀ p ∈ ri, ∀ q ∈ rj, p.1 ≠ q.1) tuple) :
    joinRows tuple = tuple.flatten := by
  rw [joinRows, foldl_dictUpdate_append tuple [] hnodup hdisj (by intro r _ p hp; cases hp)]
  rfl

/-- A tuple of the enumerated cross product picks one row from each
table, in order. -/
theorem product_mem (ts : List Table) : ∀ (tuple : List Row),
    tuple ∈ itertools_product (ts.map (·.rows)) →
    List.Forall₂ (fun (r : Row) (t : Table) => r ∈ t.rows) tuple ts := by
  induction ts with
  | nil =>
    intro tuple h
    simp only [List.map_nil, itertools_product, List.mem_singleton] at h
    subst h
    exact List.Forall₂.nil
  | cons t ts ih =>
    intro tuple h
    simp only [List.map_cons, itertools_product, List.mem_flatten, List.mem_map] at h
    obtain ⟨l, ⟨r, hr, hl⟩, htl⟩ := h
    subst hl
    simp only [List.mem_map] at htl
    obtain ⟨tuple', htuple', he⟩ := htl
    subst he
    exact List.Forall₂.cons hr (ih tuple' htuple')

/-- Appending a fixed prefix to strings is injective. -/
theorem qualified_inj (name : String) : Function.Injective (fun s => name ++ "." ++ s) := by
  intro a b h
  simp only at h
  have hdata := congrArg String.data h
  rw [String.data_append, String.data_append, String.data_append, String.data_append] at hdata
  exact String.ext (List.append_cancel_left hdata)

/-- The key list of a schema-aligned row is the qualified column list. -/
theorem forall2_map_fst (name : String) (H : List (String × String)) (r : Row)
    (hrel : List.Forall₂ (fun (kv : String × Value) (h : String × String) =>
      kv.1 = name ++ "." ++ h.1 ∧ literalTypeLabel kv.2 = h.2) r H) :
    r.map (·.1) = H.map (fun h => name ++ "." ++ h.1) := by
  induction hrel with
  | nil => rfl
  | cons hph _ ih =>
    rw [List.map_cons, List.map_cons, hph.1, ih]

/-- The keys of a well-formed table's row are duplicate-free. -/
theorem row_keys_nodup (t : Table) (hwf : tableWF t) (r : Row) (hr : r ∈ t.rows) :
    ((r : Row).map (·.1)).Nodup := by
  rw [forall2_map_fst t.name t.headers r (hwf.2.2.2 r hr)]
  have : t.headers.map (fun h => t.name ++ "." ++ h.1)
      = (t.headers.map (·.1)).map (fun s => t.name ++ "." ++ s) := by
    rw [List.map_map]
    rfl
  rw [this]
  exact hwf.2.1.map (qualified_inj t.name)

/-- Rows drawn from distinct well-formed tables have pairwise disjoint
keys. -/
theorem forall2_mem_left {α β : Type} {R : α → β → Prop} {l1 : List α} {l2 : List β}
    (hrel : List.Forall₂ R l1 l2) : ∀ x ∈ l1, ∃ y ∈ l2, R x y := by
  induction hrel with
  | nil => intro x hx; cases hx
  | cons hxy _ ih =>
    intro x hx
    rcases List.mem_cons.mp hx with he | hm
    · exact ⟨_, List.mem_cons_self _ _, he ▸ hxy⟩
    · obtain ⟨y, hy, hxy'⟩ := ih x hm
      exact ⟨y, List.mem_cons_of_mem _ hy, hxy'⟩

/-- Rows drawn from distinct well-formed tables have pairwise disjoint
keys. -/
theorem tuple_pairwise_disjoint (ts : List Table) (tuple : List Row)
    (hwf : tablesWF ts)
    (hrel : List.Forall₂ (fun (r : Row) (t : Table) => r ∈ t.rows) tuple ts) :
    List.Pairwise (fun (ri rj : Row) => ∀ p ∈ ri, ∀ q ∈ rj, p.1 ≠ q.1) tuple := by
  obtain ⟨hnodup, hall⟩ := hwf
  induction hrel with
  | nil => exact List.Pairwise.nil
  | @cons r t tuple' ts' hr hrel ih =>
    rw [List.map_cons] at hnodup
    refine List.Pairwise.cons ?_ (ih (List.nodup_cons.mp hnodup).2
      (fun t' ht' => hall t' (List.mem_cons_of_mem t ht')))
    intro r' hr' p hp q hq
    obtain ⟨t', ht', hrt'⟩ := forall2_mem_left hrel r' hr'
    obtain ⟨h1, _, hk1, _⟩ := keys_of_forall2 t.name t.headers r
      ((hall t (List.mem_cons_self _ _)).2.2.2 r hr) p hp
    obtain ⟨h2, _, hk2, _⟩ := keys_of_forall2 t'.name t'.headers r'
      ((hall t' (List.mem_cons_of_mem t ht')).2.2.2 r' hrt') q hq
    rw [hk1, hk2]
    refine key_ne_of_name_ne t.name t'.name h1.1 h2.1
      (hall t (List.mem_cons_self _ _)).1.2.1
      (hall t' (List.mem_cons_of_mem t ht')).1.2.1 ?_
    intro he
    exact (List.nodup_cons.mp hnodup).1
      (he ▸ List.mem_map_of_mem (fun x => x.name) ht')

/-- A condition ready for direct evaluation: a valid query operator,
clean compiled text on both sides, and a well-typed annotation against
the table set. -/
def evalWF (tables : List Table) (c : Condition) : Prop :=
  c.op ∈ validOps ∧ sideClean c.left ∧ sideClean c.right ∧ annCondOK tables c

/-- A row covering one table: every declared column of the table is
present under its qualified key, with a value of the declared type. -/
def rowCoversT (t : Table) (j : Row) : Prop :=
  ∀ col ty, t.headers.find? (fun p => p.1 == col) = some (col, ty) →
    ∃ v, rowGet j (t.name ++ "." ++ col) = some v ∧ literalTypeLabel v = ty

/-- A row covering every table of the set. -/
def rowCovers (tables : List Table) (j : Row) : Prop :=
  ∀ t ∈ tables, rowCoversT t j

/-- Total Boolean reading of the compiled filter (false when evaluation
would raise). -/
def callB (strs : List String) (j : Row) : Bool :=
  match TableFilter.call strs j with
  | .ok b => b
  | .error _ => false

/-- Total reading of the projection of one joined row (empty when
evaluation would raise). -/
def selVals (q : Query) (j : Row) : List Value :=
  match evaluate_select j q with
  | .ok v => v
  | .error _ => []

/-- The specification's projection, §4.4 step 5: each select item's
qualified value extracted from the joined row, in select-list order. -/
def selectProj (q : Query) (j : Row) : List Value :=
  q.select.map (fun f =>
    (rowGet j (f.column.table.getD "None" ++ "." ++ f.column.name)).getD (.int 0))

/-- Pointwise conjunction of a list of predicates against an aligned
list of rows (false on a length mismatch). -/
def zipAllB : List (Row → Bool) → List Row → Bool
  | [], [] => true
  | f :: fs, r :: rs => f r && zipAllB fs rs
  | _, _ => false

/-- The early bucket a table is filtered by (empty when absent). -/
def earlyBucket (early : List (String × List Condition)) (t : Table) : List Condition :=
  (lookupEarly early t.name).getD []

/-- A validated, annotated select field: its table annotation names a
member table whose schema declares the selected column. -/
def selFieldOK (tables : List Table) (f : SelectField) : Prop :=
  ∃ t ty, t ∈ tables ∧ f.column.table = some t.name
    ∧ t.headers.find? (fun p => p.1 == f.column.name) = some (f.column.name, ty)

/-- A non-empty string is truthy. -/
theorem truthy_some_of_ne (s : String) (h : s ≠ "") : truthy (some s) = true := by
  rw [truthy]
  simpa using h

/-- `addToSet` keeps the existing members. -/
theorem mem_addToSet_mono (x y : String) (s : List String) (h : y ∈ s) :
    y ∈ addToSet x s := by
  rw [addToSet]
  split
  · exact h
  · exact List.mem_append_left _ h

/-- Distinct member tables of a duplicate-free-named set have distinct
names, contrapositively: equal names force equal tables. -/
theorem table_name_inj (ts : List Table) (hnodup : (ts.map (·.name)).Nodup) :
    ∀ t ∈ ts, ∀ t' ∈ ts, t.name = t'.name → t = t' := by
  intro t ht t' ht' he
  exact List.inj_on_of_nodup_map hnodup ht ht' he

/-- Zipping two `Forall₂`-related lists relates each pair. -/
theorem forall2_zip_mem {α β : Type} {R : α → β → Prop} :
    ∀ {l1 : List α} {l2 : List β}, List.Forall₂ R l1 l2 →
    ∀ x y, (x, y) ∈ l1.zip l2 → R x y := by
  intro l1 l2 hrel
  induction hrel with
  | nil => intro x y hxy; cases hxy
  | cons hab _ ih =>
    intro x y hxy
    rcases List.mem_cons.mp hxy with he | hm
    · injection he with h1 h2
      subst h1; subst h2
      exact hab
    · exact ih x y hm

/-- Every right member of a `Forall₂` pair of lists stands in some
zipped pair. -/
theorem forall2_mem_right_zip {α β : Type} {R : α → β → Prop} :
    ∀ {l1 : List α} {l2 : List β}, List.Forall₂ R l1 l2 →
    ∀ y ∈ l2, ∃ x, (x, y) ∈ l1.zip l2 ∧ R x y := by
  intro l1 l2 hrel
  induction hrel with
  | nil => intro y hy; cases hy
  | @cons a b l1' l2' hab _ ih =>
    intro y hy
    rcases List.mem_cons.mp hy with rfl | hm
    · exact ⟨a, List.mem_cons_self _ _, hab⟩
    · obtain ⟨x, hx, hr⟩ := ih y hm
      exact ⟨x, List.mem_cons_of_mem _ hx, hr⟩

/-- A bucket looked up by key is a member entry of the bucket list. -/
theorem lookupEarly_mem (early : List (String × List Condition)) (a : String)
    (l : List Condition) (h : lookupEarly early a = some l) : (a, l) ∈ early := by
  rw [lookupEarly] at h
  cases hf : early.find? (fun p => p.1 == a) with
  | none => rw [hf] at h; cases h
  | some p =>
    rw [hf] at h
    have hp := List.find?_some hf
    have hm := List.mem_of_find?_eq_some hf
    obtain ⟨p1, p2⟩ := p
    simp only [beq_iff_eq] at hp
    have h1 : p1 = a := hp
    have h2 : p2 = l := by
      have hshape : Option.map (fun x => x.2) (some ((p1, p2) : String × List Condition))
          = some p2 := rfl
      rw [hshape] at h
      injection h
    subst h1
    subst h2
    exact hm

/-- Under duplicate-free keys, a member entry is found by its key. -/
theorem lookupEarly_of_mem (early : List (String × List Condition)) (a : String)
    (l : List Condition) (hnodup : (early.map (·.1)).Nodup)
    (hmem : (a, l) ∈ early) : lookupEarly early a = some l := by
  induction early with
  | nil => cases hmem
  | cons p rest ih =>
    rw [List.map_cons, List.nodup_cons] at hnodup
    rcases List.mem_cons.mp hmem with rfl | hm
    · rw [lookupEarly, List.find?_cons]
      simp
    · have hne : (p.1 == a) = false := by
        simp only [beq_eq_false_iff_ne, ne_eq]
        intro he
        exact hnodup.1 (he ▸ List.mem_map_of_mem (·.1) hm)
      rw [lookupEarly, List.find?_cons, hne]
      exact ih hnodup.2 hm

/-- `earlyConds` unfolds over a cons as the head bucket followed by the
rest. -/
theorem earlyConds_cons (p : String × List Condition) (rest : List (String × List Condition)) :
    earlyConds (p :: rest) = p.2 ++ earlyConds rest := by
  simp [earlyConds]

/-- The key list after a `defaultdict` append: unchanged when the key
already owns a bucket, extended by the key otherwise. -/
theorem addEarly_keys (early : List (String × List Condition)) (k : String) (c : Condition) :
    (addEarly early k c).map (·.1)
    = if early.any (fun p => p.1 == k) then early.map (·.1)
      else early.map (·.1) ++ [k] := by
  rw [addEarly]
  split
  · rw [List.map_map]
    refine List.map_congr_left ?_
    intro p _
    by_cases h : p.1 == k
    · simp [Function.comp, h]
    · simp only [Bool.not_eq_true] at h
      simp [Function.comp, h]
  · simp

/-- A `defaultdict` append keeps the keys duplicate-free. -/
theorem addEarly_keys_nodup (early : List (String × List Condition)) (k : String)
    (c : Condition) (h : (early.map (·.1)).Nodup) :
    ((addEarly early k c).map (·.1)).Nodup := by
  rw [addEarly_keys]
  split
  · exact h
  · next hany =>
    rw [List.nodup_append]
    refine ⟨h, List.nodup_singleton k, ?_⟩
    intro a ha hk
    rw [List.mem_singleton.mp hk] at ha
    obtain ⟨p, hp, hpk⟩ := List.mem_map.mp ha
    exact hany (List.any_eq_true.mpr ⟨p, hp, by simp [hpk]⟩)

/-- A `defaultdict` append adds exactly one condition to the flattened
bucket contents, up to permutation, when the keys are duplicate-free. -/
theorem addEarly_flatten_perm (k : String) (c : Condition) :
    ∀ (early : List (String × List Condition)), (early.map (·.1)).Nodup →
    List.Perm (earlyConds (addEarly early k c)) (earlyConds early ++ [c]) := by
  intro early
  induction early with
  | nil =>
    intro _
    simp [addEarly, earlyConds]
  | cons p rest ih =>
    intro hnodup
    rw [List.map_cons, List.nodup_cons] at hnodup
    by_cases hpk : (p.1 == k) = true
    · have hany : ((p :: rest).any fun q => q.1 == k) = true := by
        simp [List.any_cons, hpk]
      have hrest : rest.map (fun q => if q.1 == k then (q.1, q.2 ++ [c]) else q) = rest := by
        have hid : ∀ q ∈ rest, (if q.1 == k then (q.1, q.2 ++ [c]) else q) = id q := by
          intro q hq
          have hqk : (q.1 == k) = false := by
            simp only [beq_eq_false_iff_ne, ne_eq]
            intro he
            exact hnodup.1 ((eq_of_beq hpk).symm ▸ he ▸ List.mem_map_of_mem (·.1) hq)
          simp [hqk]
        rw [List.map_congr_left hid, List.map_id]
      rw [addEarly, if_pos hany, List.map_cons, if_pos hpk, hrest,
        earlyConds_cons, earlyConds_cons]
      simp only [List.append_assoc]
      exact List.Perm.append_left p.2 (List.perm_append_comm)
    · have hpk' : (p.1 == k) = false := by simpa using hpk
      have hstep : addEarly (p :: rest) k c = p :: addEarly rest k c := by
        by_cases hany : (rest.any fun q => q.1 == k) = true
        · rw [addEarly, addEarly, List.any_cons, hpk', Bool.false_or, if_pos hany,
            if_pos hany, List.map_cons, if_neg (by simp [hpk'])]
        · have hany' : (rest.any fun q => q.1 == k) = false := by
            rw [Bool.eq_false_iff]
            exact hany
          rw [addEarly, addEarly, List.any_cons, hpk', Bool.false_or, hany']
          simp
      rw [hstep, earlyConds_cons, earlyConds_cons, List.append_assoc]
      exact List.Perm.append_left p.2 (ih hnodup.2)

/-- The classification loop appends each processed condition to exactly
one place: the flattened buckets plus the late list grow by precisely
the same annotated conditions the accumulator records. -/
theorem parse_where_go_perm (tables : List Table) :
    ∀ (conds : List Condition) (lt : Option Table) (early : List (String × List Condition))
      (late acc : List Condition) (early' : List (String × List Condition))
      (late' acc' : List Condition),
    parse_where_go tables lt early late acc conds = .ok (early', late', acc') →
    (early.map (·.1)).Nodup →
    ∃ delta, acc' = acc ++ delta
      ∧ List.Perm (earlyConds early' ++ late') (earlyConds early ++ late ++ delta) := by
  intro conds
  induction conds with
  | nil =>
    intro lt early late acc early' late' acc' h _
    rw [parse_where_go] at h
    simp only [Except.ok.injEq, Prod.mk.injEq] at h
    obtain ⟨h1, h2, h3⟩ := h
    subst h1; subst h2; subst h3
    exact ⟨[], by simp, by simp⟩
  | cons c cs ih =>
    intro lt early late acc early' late' acc' h hnodup
    rw [parse_where_go] at h
    cases hcc : classify_condition tables lt c with
    | error e =>
      rw [hcc] at h
      cases h
    | ok quad =>
      obtain ⟨c', types, involved, lt2⟩ := quad
      rw [hcc] at h
      simp only [exc_bind_ok] at h
      by_cases hty : types.length > 1
      · rw [if_pos hty] at h
        cases h
      · rw [if_neg hty] at h
        by_cases hni : involved.length > 1
        · rw [if_pos hni] at h
          obtain ⟨delta, hacc, hperm⟩ :=
            ih lt2 early (late ++ [c']) (acc ++ [c']) early' late' acc' h hnodup
          refine ⟨c' :: delta, by rw [hacc]; simp, ?_⟩
          have hre : earlyConds early ++ (late ++ [c']) ++ delta
              = earlyConds early ++ late ++ (c' :: delta) := by
            simp
          rw [hre] at hperm
          exact hperm
        · rw [if_neg hni] at h
          cases lt2 with
          | none => cases h
          | some t =>
            obtain ⟨delta, hacc, hperm⟩ :=
              ih (some t) (addEarly early t.name c') late (acc ++ [c']) early' late' acc' h
                (addEarly_keys_nodup early t.name c' hnodup)
            refine ⟨c' :: delta, by rw [hacc]; simp, ?_⟩
            have hA : List.Perm (earlyConds (addEarly early t.name c') ++ late ++ delta)
                ((earlyConds early ++ [c']) ++ late ++ delta) :=
              List.Perm.append_right delta
                (List.Perm.append_right late (addEarly_flatten_perm t.name c' early hnodup))
            refine hperm.trans (hA.trans ?_)
            have hre : (earlyConds early ++ [c']) ++ late ++ delta
                = earlyConds early ++ (([c'] ++ late) ++ delta) := by
              simp
            have hre2 : earlyConds early ++ late ++ (c' :: delta)
                = earlyConds early ++ ((late ++ [c']) ++ delta) := by
              simp
            rw [hre, hre2]
            exact List.Perm.append_left (earlyConds early)
              (List.Perm.append_right delta List.perm_append_comm)

/-- A character of a qualified key comes from the prefix, the dot, or
the column. -/
theorem mem_qualified_char (n col : String) (ch : Char)
    (h : ch ∈ (n ++ "." ++ col).data) : ch ∈ n.data ∨ ch = '.' ∨ ch ∈ col.data := by
  rw [String.data_append, String.data_append] at h
  simpa using h

/-- A clean literal side is clean compiled text. -/
theorem sideClean_of_cleanLit (v : Value) (h : cleanLit (.literal v)) :
    sideClean (.literal v) := by
  cases v with
  | int n => trivial
  | str s => exact h

/-- A side that classifies successfully is annotated with a member
table's declared type (or its literal's runtime label), is clean
compiled text, and stamps exactly its label onto the running type
set. -/
theorem classify_side_ann (tables : List Table) (hts : ∀ t ∈ tables, tableWF t)
    (ty inv : List String) (lt : Option Table) (e e' : Expr)
    (ty' inv' : List String) (lt' : Option Table)
    (h : classify_side tables ty inv lt e = .ok (e', ty', inv', lt'))
    (hclean : cleanLit e) :
    ∃ l, annSideOK tables e' l ∧ sideClean e' ∧ ty' = addToSet l ty := by
  obtain ⟨-, hcase⟩ := classify_side_spec tables ty inv lt e e' ty' inv' lt' h
  rcases hcase with ⟨v, he, he', hty, -, -⟩ | ⟨ref, t, htype, he, he', hmem, -, hfind, hty, -⟩
  · subst he'
    subst he
    exact ⟨literalTypeLabel v, .inl ⟨v, rfl, rfl⟩, sideClean_of_cleanLit v hclean, hty⟩
  · subst he'
    have hhmem : (ref.name, htype) ∈ t.headers := List.mem_of_find?_eq_some hfind
    have hnameT : nameOK t.name := (hts t hmem).1
    have hnameC : nameOK ref.name := ((hts t hmem).2.2.1 (ref.name, htype) hhmem).2
    refine ⟨htype, .inr ⟨{ ref with table := some t.name }, t, rfl, hmem, rfl, hfind⟩,
      ?_, hty⟩
    have hkey : columnKey { ref with table := some t.name }
        = t.name ++ "." ++ ref.name := rfl
    rw [sideClean, hkey]
    constructor
    · intro hq
      rcases mem_qualified_char t.name ref.name '"' hq with h1 | h1 | h1
      · exact hnameT.2.2.1 h1
      · cases h1
      · exact hnameC.2.2.1 h1
    · intro hq
      rcases mem_qualified_char t.name ref.name '\\' hq with h1 | h1 | h1
      · exact hnameT.2.2.2 h1
      · cases h1
      · exact hnameC.2.2.2 h1

/-- A condition that classifies successfully with at most one collected
type label is ready for direct evaluation: valid operator, clean text,
shared annotation label. -/
theorem classify_condition_ann (tables : List Table) (hts : ∀ t ∈ tables, tableWF t)
    (lt : Option Table) (c c' : Condition) (types involved : List String) (lt2 : Option Table)
    (h : classify_condition tables lt c = .ok (c', types, involved, lt2))
    (hwfc : condWF c) (hlen : ¬ types.length > 1) : evalWF tables c' := by
  obtain ⟨-, hop, ty1, inv1, lt1, h1, h2⟩ :=
    classify_condition_spec tables lt c c' types involved lt2 h
  obtain ⟨ll, hannL, hcleanL, htyL⟩ :=
    classify_side_ann tables hts [] [] lt c.left c'.left ty1 inv1 lt1 h1 hwfc.2.1
  obtain ⟨lr, hannR, hcleanR, htyR⟩ :=
    classify_side_ann tables hts ty1 inv1 lt1 c.right c'.right types involved lt2 h2 hwfc.2.2
  have hllty : ll ∈ ty1 := htyL ▸ mem_addToSet_self ll []
  have hllmem : ll ∈ types := htyR ▸ mem_addToSet_mono lr ll ty1 hllty
  have hlrmem : lr ∈ types := htyR ▸ mem_addToSet_self lr ty1
  have heq : ll = lr := by
    match htypes : types with
    | [] => cases hlrmem
    | [x] => rw [List.mem_singleton.mp hllmem, List.mem_singleton.mp hlrmem]
    | x :: y :: rest => exact absurd (by simp) hlen
  exact ⟨hop ▸ hwfc.1, hcleanL, hcleanR, ll, hannL, heq ▸ hannR⟩

/-- The last-table variable after classifying one side is either
untouched or a member table. -/
theorem classify_side_lt (tables : List Table) (ty inv : List String) (lt : Option Table)
    (e e' : Expr) (ty' inv' : List String) (lt' : Option Table)
    (h : classify_side tables ty inv lt e = .ok (e', ty', inv', lt')) :
    ∀ t, lt' = some t → lt = some t ∨ t ∈ tables := by
  obtain ⟨-, hcase⟩ := classify_side_spec tables ty inv lt e e' ty' inv' lt' h
  rcases hcase with ⟨v, -, -, -, hlt, -⟩ | ⟨ref, t0, htype, -, -, hmem, hlt, -, -, -⟩
  · intro t ht
    exact .inl (hlt ▸ ht)
  · intro t ht
    rw [hlt] at ht
    injection ht with ht
    exact .inr (ht ▸ hmem)

/-- The last-table variable after classifying one condition is either
untouched or a member table. -/
theorem classify_condition_lt (tables : List Table) (lt : Option Table) (c c' : Condition)
    (types involved : List String) (lt2 : Option Table)
    (h : classify_condition tables lt c = .ok (c', types, involved, lt2)) :
    ∀ t, lt2 = some t → lt = some t ∨ t ∈ tables := by
  obtain ⟨-, -, ty1, inv1, lt1, h1, h2⟩ :=
    classify_condition_spec tables lt c c' types involved lt2 h
  intro t ht
  rcases classify_side_lt tables ty1 inv1 lt1 c.right c'.right types involved lt2 h2 t ht
    with h3 | h3
  · exact classify_side_lt tables [] [] lt c.left c'.left ty1 inv1 lt1 h1 t h3
  · exact .inr h3

/-- Case analysis on the entries of a `defaultdict` append. -/
theorem addEarly_entry_mem (early : List (String × List Condition)) (k : String)
    (c : Condition) : ∀ p ∈ addEarly early k c,
    p ∈ early ∨ (∃ l0, (k, l0) ∈ early ∧ p = (k, l0 ++ [c])) ∨ p = (k, [c]) := by
  intro p hp
  rw [addEarly] at hp
  split at hp
  · obtain ⟨p0, hp0, hfp⟩ := List.mem_map.mp hp
    by_cases hk : (p0.1 == k) = true
    · rw [if_pos hk] at hfp
      refine .inr (.inl ⟨p0.2, ?_, ?_⟩)
      · have : p0 = (k, p0.2) := by
          obtain ⟨a, b⟩ := p0
          simp only [beq_iff_eq] at hk
          simp [hk]
        exact this ▸ hp0
      · rw [← hfp]
        obtain ⟨a, b⟩ := p0
        simp only [beq_iff_eq] at hk
        simp [hk]
    · rw [if_neg hk] at hfp
      exact .inl (hfp ▸ hp0)
  · rcases List.mem_append.mp hp with h1 | h1
    · exact .inl h1
    · exact .inr (.inr (List.mem_singleton.mp h1))

/-- The classification loop preserves well-formedness: every bucket is
keyed by a member table's alias and holds directly-evaluable
conditions, and the late list and the annotated accumulator hold
directly-evaluable conditions. -/
theorem parse_where_go_wf (tables : List Table) (hts : ∀ t ∈ tables, tableWF t) :
    ∀ (conds : List Condition) (lt : Option Table) (early : List (String × List Condition))
      (late acc : List Condition) (early' : List (String × List Condition))
      (late' acc' : List Condition),
    parse_where_go tables lt early late acc conds = .ok (early', late', acc') →
    (∀ c ∈ conds, condWF c) →
    (∀ t, lt = some t → t ∈ tables) →
    (∀ p ∈ early, (∃ t ∈ tables, t.name = p.1) ∧ ∀ c ∈ p.2, evalWF tables c) →
    (∀ c ∈ late, evalWF tables c) →
    (∀ c ∈ acc, evalWF tables c) →
    (∀ p ∈ early', (∃ t ∈ tables, t.name = p.1) ∧ ∀ c ∈ p.2, evalWF tables c)
    ∧ (∀ c ∈ late', evalWF tables c)
    ∧ (∀ c ∈ acc', evalWF tables c) := by
  intro conds
  induction conds with
  | nil =>
    intro lt early late acc early' late' acc' h _ _ hearly hlate hacc
    rw [parse_where_go] at h
    simp only [Except.ok.injEq, Prod.mk.injEq] at h
    obtain ⟨h1, h2, h3⟩ := h
    subst h1; subst h2; subst h3
    exact ⟨hearly, hlate, hacc⟩
  | cons c cs ih =>
    intro lt early late acc early' late' acc' h hconds hlt hearly hlate hacc
    rw [parse_where_go] at h
    cases hcc : classify_condition tables lt c with
    | error e =>
      rw [hcc] at h
      cases h
    | ok quad =>
      obtain ⟨c', types, involved, lt2⟩ := quad
      rw [hcc] at h
      simp only [exc_bind_ok] at h
      by_cases hty : types.length > 1
      · rw [if_pos hty] at h
        cases h
      · rw [if_neg hty] at h
        have hwfc' : evalWF tables c' :=
          classify_condition_ann tables hts lt c c' types involved lt2 hcc
            (hconds c (List.mem_cons_self _ _)) hty
        have hlt2 : ∀ t, lt2 = some t → t ∈ tables := by
          intro t ht
          rcases classify_condition_lt tables lt c c' types involved lt2 hcc t ht with h1 | h1
          · exact hlt t h1
          · exact h1
        have hconds' : ∀ d ∈ cs, condWF d := fun d hd => hconds d (List.mem_cons_of_mem _ hd)
        have hacc' : ∀ d ∈ acc ++ [c'], evalWF tables d := by
          intro d hd
          rcases List.mem_append.mp hd with h1 | h1
          · exact hacc d h1
          · exact List.mem_singleton.mp h1 ▸ hwfc'
        by_cases hni : involved.length > 1
        · rw [if_pos hni] at h
          refine ih lt2 early (late ++ [c']) (acc ++ [c']) early' late' acc' h hconds'
            hlt2 hearly ?_ hacc'
          intro d hd
          rcases List.mem_append.mp hd with h1 | h1
          · exact hlate d h1
          · exact List.mem_singleton.mp h1 ▸ hwfc'
        · rw [if_neg hni] at h
          cases lt2 with
          | none => cases h
          | some t =>
            have htmem : t ∈ tables := hlt2 t rfl
            refine ih (some t) (addEarly early t.name c') late (acc ++ [c']) early' late'
              acc' h hconds' hlt2 ?_ hlate hacc'
            intro p hp
            rcases addEarly_entry_mem early t.name c' p hp with h1 | ⟨l0, hl0, h1⟩ | h1
            · exact hearly p h1
            · refine ⟨?_, ?_⟩
              · rw [h1]
                exact ⟨t, htmem, rfl⟩
              · intro d hd
                rw [h1] at hd
                rcases List.mem_append.mp hd with h2 | h2
                · exact (hearly (t.name, l0) hl0).2 d h2
                · exact List.mem_singleton.mp h2 ▸ hwfc'
            · refine ⟨?_, ?_⟩
              · rw [h1]
                exact ⟨t, htmem, rfl⟩
              · intro d hd
                rw [h1] at hd
                exact List.mem_singleton.mp hd ▸ hwfc'

/-- Comparing two values of the same runtime label with a mapped query
operator never raises. -/
theorem pyCompare_ok (op : String) (hop : op ∈ validOps) (a b : Value)
    (hl : literalTypeLabel a = literalTypeLabel b) :
    ∃ x, pyCompare (OP_MAPPINGS op) a b = .ok x := by
  rcases OP_MAPPINGS_valid op hop with h | h | h | h | h | h <;> rw [h] <;>
    cases a <;> cases b <;>
    first
      | exact ⟨_, rfl⟩
      | exact absurd hl (by simp [literalTypeLabel])

/-- A well-annotated side evaluates directly on a covering row to a
value of its label. -/
theorem direct_expression_ok (tables : List Table) (e : Expr) (l : String) (j : Row)
    (h : annSideOK tables e l) (hcov : rowCovers tables j) :
    ∃ v, direct_expression e j = .ok v ∧ literalTypeLabel v = l := by
  rcases h with ⟨v, he, hv⟩ | ⟨ref, t, he, hmem, href, hfind⟩
  · subst he
    exact ⟨v, rfl, hv⟩
  · subst he
    obtain ⟨v, hget, hvl⟩ := hcov t hmem ref.name l hfind
    have hkey : columnKey ref = t.name ++ "." ++ ref.name := by
      rw [columnKey, href]
    refine ⟨v, ?_, hvl⟩
    simp only [direct_expression]
    rw [hkey, hget]

/-- A directly-evaluable condition never raises on a covering row. -/
theorem direct_condition_ok (tables : List Table) (c : Condition) (j : Row)
    (hwfc : evalWF tables c) (hcov : rowCovers tables j) :
    ∃ b, direct_condition c j = .ok b := by
  obtain ⟨hop, -, -, l, hl, hr⟩ := hwfc
  obtain ⟨va, hva, hla⟩ := direct_expression_ok tables c.left l j hl hcov
  obtain ⟨vb, hvb, hlb⟩ := direct_expression_ok tables c.right l j hr hcov
  obtain ⟨x, hx⟩ := pyCompare_ok c.op hop va vb (by rw [hla, hlb])
  refine ⟨x, ?_⟩
  rw [direct_condition, hva]
  simp only [exc_bind_ok]
  rw [hvb]
  simp only [exc_bind_ok]
  exact hx

/-- When no member condition raises, the direct conjunction computes
the Boolean `all` of the members. -/
theorem direct_matches_ok (conds : List Condition) (j : Row)
    (h : ∀ c ∈ conds, ∃ b, direct_condition c j = .ok b) :
    direct_matches conds j = .ok (conds.all (fun c => condB c j)) := by
  induction conds with
  | nil => rfl
  | cons c rest ih =>
    obtain ⟨b, hb⟩ := h c (List.mem_cons_self _ _)
    have hcb : condB c j = b := by rw [condB, hb]
    simp only [direct_matches]
    rw [hb]
    simp only [exc_bind_ok]
    rw [List.all_cons, hcb]
    cases b with
    | false => simp
    | true =>
      simp only [if_true, Bool.true_and]
      exact ih (fun d hd => h d (List.mem_cons_of_mem _ hd))

/-- The total reading of `matchesB` agrees with the Boolean `all` when
no member condition raises. -/
theorem matchesB_eq_all (conds : List Condition) (j : Row)
    (h : ∀ c ∈ conds, ∃ b, direct_condition c j = .ok b) :
    matchesB conds j = conds.all (fun c => condB c j) := by
  rw [matchesB, direct_matches_ok conds j h]

/-- A table's own row covers the table. -/
theorem rowCoversT_of_mem (t : Table) (hwf : tableWF t) (r : Row) (hr : r ∈ t.rows) :
    rowCoversT t r := by
  intro col ty hfind
  exact lookup_of_forall2 t.name t.headers r (hwf.2.2.2 r hr) col ty hwf.2.1 hfind

/-- A row of a differently-named table holds no binding under this
table's qualified keys. -/
theorem find_other_table_none (t t' : Table) (hwfT : tableWF t) (hwfT' : tableWF t')
    (hne : t'.name ≠ t.name) (r' : Row) (hr' : r' ∈ t'.rows) (col : String) :
    r'.find? (fun p => p.1 == t.name ++ "." ++ col) = none := by
  rw [List.find?_eq_none]
  intro q hq
  obtain ⟨h, hh, hk, -⟩ := keys_of_forall2 t'.name t'.headers r' (hwfT'.2.2.2 r' hr') q hq
  rw [hk]
  simp only [beq_iff_eq]
  exact key_ne_of_name_ne t'.name t.name h.1 col hwfT'.1.2.1 hwfT.1.2.1 hne

/-- Looking a table's qualified key up in a concatenated aligned tuple
reads exactly that table's component row. -/
theorem rowGet_flatten_aligned (ts : List Table) (tuple : List Row)
    (hwf : tablesWF ts)
    (hrel : List.Forall₂ (fun (r : Row) (t : Table) => r ∈ t.rows) tuple ts) :
    ∀ (r : Row) (t : Table), (r, t) ∈ tuple.zip ts →
    ∀ col, rowGet tuple.flatten (t.name ++ "." ++ col) = rowGet r (t.name ++ "." ++ col) := by
  obtain ⟨hnodup, hall⟩ := hwf
  induction hrel with
  | nil =>
    intro r t hmem
    cases hmem
  | @cons r0 t0 tuple' ts' hr0 hrel ih =>
    rw [List.map_cons, List.nodup_cons] at hnodup
    intro r t hmem col
    rw [List.flatten_cons]
    rcases List.mem_cons.mp hmem with he | hm
    · injection he with h1 h2
      subst h1
      subst h2
      have hnone : tuple'.flatten.find? (fun p => p.1 == t.name ++ "." ++ col) = none := by
        rw [List.find?_eq_none]
        intro q hq
        obtain ⟨r', hr', hqr'⟩ := List.mem_flatten.mp hq
        obtain ⟨t', ht', hrt'⟩ := forall2_mem_left hrel r' hr'
        have hne : t'.name ≠ t.name := by
          intro he
          exact hnodup.1 (he ▸ List.mem_map_of_mem (fun x => x.name) ht')
        have := find_other_table_none t t' (hall t (List.mem_cons_self _ _))
          (hall t' (List.mem_cons_of_mem _ ht')) hne r' hrt' col
        rw [List.find?_eq_none] at this
        exact this q hqr'
      rw [rowGet, rowGet, List.find?_append, hnone, Option.or_none]
    · obtain ⟨-, ht⟩ := List.of_mem_zip hm
      have hne : t0.name ≠ t.name := by
        intro he
        exact hnodup.1 (he ▸ List.mem_map_of_mem (fun x => x.name) ht)
      have h0 : r0.find? (fun p => p.1 == t.name ++ "." ++ col) = none :=
        find_other_table_none t t0 (hall t (List.mem_cons_of_mem _ ht))
          (hall t0 (List.mem_cons_self _ _)) hne r0 hr0 col
      rw [rowGet, List.find?_append, h0, Option.none_or, ← rowGet]
      exact ih hnodup.2 (fun t' ht' => hall t' (List.mem_cons_of_mem _ ht')) r t hm col

/-- Looking a table's qualified key up in the merged joined row reads
exactly that table's component row. -/
theorem rowGet_join_eq (ts : List Table) (tuple : List Row) (hwf : tablesWF ts)
    (hrel : List.Forall₂ (fun (r : Row) (t : Table) => r ∈ t.rows) tuple ts)
    (r : Row) (t : Table) (hmem : (r, t) ∈ tuple.zip ts) (col : String) :
    rowGet (joinRows tuple) (t.name ++ "." ++ col) = rowGet r (t.name ++ "." ++ col) := by
  have hnd : ∀ r' ∈ tuple, ((r' : Row).map (·.1)).Nodup := by
    intro r' hr'
    obtain ⟨t', ht', hrt'⟩ := forall2_mem_left hrel r' hr'
    exact row_keys_nodup t' (hwf.2 t' ht') r' hrt'
  rw [joinRows_eq_flatten tuple hnd (tuple_pairwise_disjoint ts tuple hwf hrel)]
  exact rowGet_flatten_aligned ts tuple hwf hrel r t hmem col

/-- The joined row of an aligned tuple covers every member table. -/
theorem rowCovers_joined (ts : List Table) (tuple : List Row) (hwf : tablesWF ts)
    (hrel : List.Forall₂ (fun (r : Row) (t : Table) => r ∈ t.rows) tuple ts) :
    rowCovers ts (joinRows tuple) := by
  intro t hmem col ty hfind
  obtain ⟨r, hzip, hrt⟩ := forall2_mem_right_zip hrel t hmem
  rw [rowGet_join_eq ts tuple hwf hrel r t hzip col]
  exact rowCoversT_of_mem t (hwf.2 t hmem) r hrt col ty hfind

/-- A side's aliases survive into any later alias set. -/
theorem exprAliases_mono (e : Expr) (s : List String) (y : String) (h : y ∈ s) :
    y ∈ exprAliases e s := by
  cases e with
  | literal v => exact h
  | column ref => exact mem_addToSet_mono _ y s h

/-- A column left side contributes its alias to the condition's alias
set. -/
theorem left_alias_mem (c : Condition) (ref : ColumnRef) (h : c.left = .column ref) :
    ref.table.getD "" ∈ condAliases c := by
  rw [condAliases, h]
  exact exprAliases_mono c.right _ _ (mem_addToSet_self _ [])

/-- A column right side contributes its alias to the condition's alias
set. -/
theorem right_alias_mem (c : Condition) (ref : ColumnRef) (h : c.right = .column ref) :
    ref.table.getD "" ∈ condAliases c := by
  rw [condAliases, h]
  exact mem_addToSet_self _ _

/-- Evaluating a side whose only possible column alias is the aligned
table reads the same value from the joined row and from the component
row. -/
theorem direct_expression_local (tables : List Table) (tuple : List Row)
    (hwf : tablesWF tables)
    (hrel : List.Forall₂ (fun (r : Row) (t : Table) => r ∈ t.rows) tuple tables)
    (r : Row) (t : Table) (hmem : (r, t) ∈ tuple.zip tables) (e : Expr)
    (halias : ∀ ref, e = .column ref → ref.table.getD "" = t.name) :
    direct_expression e (joinRows tuple) = direct_expression e r := by
  cases e with
  | literal v => rfl
  | column ref =>
    have hx := halias ref rfl
    have htmem : t ∈ tables := (List.of_mem_zip hmem).2
    have hne : t.name ≠ "" := (hwf.2 t htmem).1.1
    cases href : ref.table with
    | none =>
      rw [href] at hx
      exact absurd hx.symm hne
    | some x =>
      rw [href] at hx
      have hx' : x = t.name := by simpa using hx
      have hkey : columnKey ref = t.name ++ "." ++ ref.name := by
        rw [columnKey, href, hx']
      simp only [direct_expression]
      rw [hkey, rowGet_join_eq tables tuple hwf hrel r t hmem ref.name]

/-- Evaluating a condition confined to one aligned table gives the same
result on the joined row and on that table's component row. -/
theorem direct_condition_local (tables : List Table) (tuple : List Row)
    (hwf : tablesWF tables)
    (hrel : List.Forall₂ (fun (r : Row) (t : Table) => r ∈ t.rows) tuple tables)
    (r : Row) (t : Table) (hmem : (r, t) ∈ tuple.zip tables) (c : Condition)
    (halias : condAliases c = [t.name] ∨ condAliases c = []) :
    direct_condition c (joinRows tuple) = direct_condition c r := by
  have hside : ∀ (e : Expr), (∀ ref, e = .column ref → ref.table.getD "" ∈ condAliases c) →
      ∀ ref, e = .column ref → ref.table.getD "" = t.name := by
    intro e hmem' ref he
    have hin := hmem' ref he
    rcases halias with ha | ha
    · rw [ha] at hin
      exact List.mem_singleton.mp hin
    · rw [ha] at hin
      cases hin
  rw [direct_condition, direct_condition,
    direct_expression_local tables tuple hwf hrel r t hmem c.left
      (hside c.left (fun ref he => left_alias_mem c ref he)),
    direct_expression_local tables tuple hwf hrel r t hmem c.right
      (hside c.right (fun ref he => right_alias_mem c ref he))]

/-- The pointwise conjunction over mapped predicates reads back as a
statement about the zipped pairs. -/
theorem zipAllB_map (g : Table → Row → Bool) : ∀ (ts : List Table) (tuple : List Row),
    tuple.length = ts.length →
    (zipAllB (ts.map g) tuple = true ↔ ∀ p ∈ tuple.zip ts, g p.2 p.1 = true) := by
  intro ts
  induction ts with
  | nil =>
    intro tuple hlen
    cases tuple with
    | nil => simp [zipAllB]
    | cons r rs => simp at hlen
  | cons t rest ih =>
    intro tuple hlen
    cases tuple with
    | nil => simp at hlen
    | cons r rs =>
      have hlen' : rs.length = rest.length := by simpa using hlen
      constructor
      · intro h p hp
        have h' : (g t r && zipAllB (rest.map g) rs) = true := h
        obtain ⟨h1, h2⟩ : g t r = true ∧ zipAllB (rest.map g) rs = true := by simpa using h'
        rw [List.zip_cons_cons] at hp
        rcases List.mem_cons.mp hp with rfl | hp'
        · exact h1
        · exact (ih rs hlen').mp h2 p hp'
      · intro h
        show (g t r && zipAllB (rest.map g) rs) = true
        rw [Bool.and_eq_true]
        refine ⟨h (r, t) (by rw [List.zip_cons_cons]; exact List.mem_cons_self _ _), ?_⟩
        refine (ih rs hlen').mpr (fun p hp => h p ?_)
        rw [List.zip_cons_cons]
        exact List.mem_cons_of_mem _ hp

/-- Flattening mapped blocks where the predicate-failing blocks are
empty equals flattening over the filtered list. -/
theorem flatten_map_filter {α β : Type} (p : α → Bool) (f g : α → List β) :
    ∀ (l : List α), (∀ a ∈ l, p a = true → f a = g a) → (∀ a ∈ l, p a = false → f a = []) →
    (l.map f).flatten = ((l.filter p).map g).flatten := by
  intro l
  induction l with
  | nil => intro _ _; rfl
  | cons a l ih =>
    intro hf hnil
    rw [List.map_cons, List.flatten_cons]
    cases hpa : p a with
    | true =>
      rw [List.filter_cons, if_pos hpa, List.map_cons, List.flatten_cons,
        hf a (List.mem_cons_self _ _) hpa,
        ih (fun b hb => hf b (List.mem_cons_of_mem _ hb))
          (fun b hb => hnil b (List.mem_cons_of_mem _ hb))]
    | false =>
      rw [hnil a (List.mem_cons_self _ _) hpa, List.nil_append, List.filter_cons,
        if_neg (by rw [hpa]; exact Bool.false_ne_true),
        ih (fun b hb => hf b (List.mem_cons_of_mem _ hb))
          (fun b hb => hnil b (List.mem_cons_of_mem _ hb))]

/-- Filtering each input list first enumerates exactly the product
tuples that pass every per-position predicate, in the same order. -/
theorem itertools_product_filter :
    ∀ (ps : List (List Row × (Row → Bool))),
    itertools_product (ps.map (fun x => x.1.filter x.2))
    = (itertools_product (ps.map (·.1))).filter (fun tuple => zipAllB (ps.map (·.2)) tuple) := by
  intro ps
  induction ps with
  | nil => rfl
  | cons x ps ih =>
    obtain ⟨l, p⟩ := x
    simp only [List.map_cons]
    show ((l.filter p).map
        (fun r => (itertools_product (ps.map (fun x => x.1.filter x.2))).map (fun t => r :: t))).flatten
      = ((l.map (fun r => (itertools_product (ps.map (·.1))).map (fun t => r :: t))).flatten).filter
          (fun tuple => zipAllB ((p : Row → Bool) :: ps.map (·.2)) tuple)
    rw [List.filter_flatten, List.map_map, ih]
    refine (flatten_map_filter p
      (fun r => ((itertools_product (ps.map (·.1))).map (fun t => r :: t)).filter
        (fun tuple => zipAllB ((p : Row → Bool) :: ps.map (·.2)) tuple))
      (fun r => ((itertools_product (ps.map (·.1))).filter
        (fun tuple => zipAllB (ps.map (·.2)) tuple)).map (fun t => r :: t))
      l ?_ ?_).symm
    · intro r _ hpr
      dsimp only
      rw [List.filter_map]
      have hfun : ((fun tuple => zipAllB ((p : Row → Bool) :: ps.map (·.2)) tuple) ∘
          (fun t => r :: t)) = (fun tuple => zipAllB (ps.map (·.2)) tuple) := by
        funext t
        show (p r && zipAllB (ps.map (·.2)) t) = zipAllB (ps.map (·.2)) t
        rw [hpr, Bool.true_and]
      rw [hfun]
    · intro r _ hpr
      dsimp only
      rw [List.filter_map]
      have hfun : ((fun tuple => zipAllB ((p : Row → Bool) :: ps.map (·.2)) tuple) ∘
          (fun t => r :: t)) = (fun _ => false) := by
        funext t
        show (p r && zipAllB (ps.map (·.2)) t) = false
        rw [hpr, Bool.false_and]
      rw [hfun, List.filter_false, List.map_nil]

/-- When no joined row raises, the production loop filters by the
compiled predicate and projects every survivor, raising nothing. -/
theorem produce_rows_no_error (q : Query) (strs : List String) :
    ∀ (js : List Row),
    (∀ j ∈ js, ∃ b, TableFilter.call strs j = .ok b) →
    (∀ j ∈ js, ∃ v, evaluate_select j q = .ok v) →
    produce_rows q strs js
    = ((js.filter (fun j => callB strs j)).map (fun j => selVals q j), none) := by
  intro js
  induction js with
  | nil =>
    intro _ _
    rfl
  | cons j js ih =>
    intro hcall hsel
    obtain ⟨b, hb⟩ := hcall j (List.mem_cons_self _ _)
    have hcb : callB strs j = b := by rw [callB, hb]
    have hrest := ih (fun x hx => hcall x (List.mem_cons_of_mem _ hx))
      (fun x hx => hsel x (List.mem_cons_of_mem _ hx))
    cases b with
    | false =>
      rw [produce_rows, hb, hrest, List.filter_cons, if_neg (by rw [hcb]; exact Bool.false_ne_true)]
    | true =>
      obtain ⟨v, hv⟩ := hsel j (List.mem_cons_self _ _)
      have hsv : selVals q j = v := by rw [selVals, hv]
      rw [produce_rows, hb, hv, hrest, List.filter_cons, if_pos (by rw [hcb]),
        List.map_cons, hsv]

/-- The projection loop of `evaluate_select` reads each annotated,
covered select field in select-list order. -/
theorem evaluate_select_go_ok (tables : List Table) (j : Row) (hcov : rowCovers tables j) :
    ∀ (fields : List SelectField), (∀ f ∈ fields, selFieldOK tables f) →
    evaluate_select_go j fields
    = .ok (fields.map (fun f =>
        (rowGet j (f.column.table.getD "None" ++ "." ++ f.column.name)).getD (.int 0))) := by
  intro fields
  induction fields with
  | nil =>
    intro _
    rfl
  | cons f fs ih =>
    intro hok
    obtain ⟨t, ty, htmem, htab, hfind⟩ := hok f (List.mem_cons_self _ _)
    obtain ⟨v, hget, -⟩ := hcov t htmem f.column.name ty hfind
    have hkey : f.column.table.getD "None" ++ "." ++ f.column.name
        = t.name ++ "." ++ f.column.name := by
      rw [htab]
      rfl
    rw [evaluate_select_go, htab]
    dsimp only
    rw [hget, ih (fun x hx => hok x (List.mem_cons_of_mem _ hx))]
    simp only [exc_bind_ok, List.map_cons, hkey, hget, Option.getD_some]

/-- A validated query projects every covering row without raising, in
select-list order. -/
theorem evaluate_select_ok (tables : List Table) (q : Query) (j : Row)
    (hcov : rowCovers tables j) (hfields : ∀ f ∈ q.select, selFieldOK tables f) :
    evaluate_select j q = .ok (selectProj q j) := by
  rw [evaluate_select, selectProj]
  exact evaluate_select_go_ok tables j hcov q.select hfields

/-- When no row raises, the row-filtering loop keeps exactly the rows
the compiled filter accepts. -/
theorem filterRowsGo_ok (strs : List String) (p : Row → Bool) :
    ∀ (rows : List Row), (∀ r ∈ rows, TableFilter.call strs r = .ok (p r)) →
    filterRowsGo strs rows = .ok (rows.filter p) := by
  intro rows
  induction rows with
  | nil =>
    intro _
    rfl
  | cons r rows ih =>
    intro h
    rw [filterRowsGo, h r (List.mem_cons_self _ _),
      ih (fun x hx => h x (List.mem_cons_of_mem _ hx))]
    simp only [exc_bind_ok, List.filter_cons]

/-- The pushdown loop succeeds and filters each table by its own early
bucket whenever no single-row evaluation raises. -/
theorem filter_tables_ok (early : List (String × List Condition)) (pred : Table → Row → Bool) :
    ∀ (ts : List Table),
    (∀ t ∈ ts, ∀ r ∈ t.rows,
      TableFilter.call (TableFilter.build (earlyBucket early t)) r = .ok (pred t r)) →
    filter_tables ts early = .ok (ts.map (fun t => t.rows.filter (pred t))) := by
  intro ts
  induction ts with
  | nil =>
    intro _
    rfl
  | cons t ts ih =>
    intro h
    rw [filter_tables]
    cases hlook : lookupEarly early t.name with
    | some conds =>
      have hbucket : earlyBucket early t = conds := by
        rw [earlyBucket, hlook]
        rfl
      dsimp only
      rw [show t.filterRows conds = filterRowsGo (TableFilter.build conds) t.rows from rfl,
        filterRowsGo_ok (TableFilter.build conds) (pred t) t.rows
          (fun r hr => hbucket ▸ h t (List.mem_cons_self _ _) r hr)]
      simp only [exc_bind_ok]
      rw [ih (fun t' ht' => h t' (List.mem_cons_of_mem _ ht'))]
      simp only [exc_bind_ok, List.map_cons]
    | none =>
      have hbucket : earlyBucket early t = [] := by
        rw [earlyBucket, hlook]
        rfl
      have hall : ∀ r ∈ t.rows, pred t r = true := by
        intro r hr
        have hme := h t (List.mem_cons_self _ _) r hr
        rw [hbucket] at hme
        have hcall : TableFilter.call (TableFilter.build []) r = .ok true := rfl
        rw [hcall] at hme
        injection hme with hme
        exact hme.symm
      dsimp only
      simp only [exc_bind_ok]
      rw [ih (fun t' ht' => h t' (List.mem_cons_of_mem _ ht'))]
      simp only [exc_bind_ok, List.map_cons]
      rw [List.filter_eq_self.mpr hall]

/-- A truthy optional string is a non-empty string. -/
theorem truthy_eq_true_iff (o : Option String) (h : truthy o = true) :
    ∃ s, o = some s ∧ s ≠ "" := by
  cases o with
  | none => cases h
  | some s =>
    refine ⟨s, rfl, ?_⟩
    intro he
    subst he
    cases h

/-- A select field that validates successfully is annotated with a
member table whose schema declares the selected column. -/
theorem validate_select_field_ann (tables : List Table) (fromItems : List FromItem)
    (hts : ∀ t ∈ tables, tableWF t) (f f' : SelectField) (hs : List (String × String))
    (h : validate_select_field tables fromItems f = .ok (f', hs)) :
    selFieldOK tables f' := by
  rw [validate_select_field] at h
  by_cases htr : truthy f.column.table = true
  · simp only [htr, if_true, exc_pure_eq, exc_bind_ok] at h
    obtain ⟨s, hsome, hne⟩ := truthy_eq_true_iff f.column.table htr
    split at h
    · cases h
    · split at h
      · cases h
      · next table hfindT =>
        split at h
        · cases h
        · next h0 hfindH =>
          simp only [exc_pure_eq, Except.ok.injEq, Prod.mk.injEq] at h
          obtain ⟨hf', -⟩ := h
          subst hf'
          have htmem : table ∈ tables := List.mem_of_find?_eq_some hfindT
          have htname : table.name = f.column.table.getD "" := by
            have := List.find?_some hfindT
            simpa using this
          have hh0 : h0.1 = f.column.name := by
            have := List.find?_some hfindH
            simpa using this
          refine ⟨table, h0.2, htmem, ?_, ?_⟩
          · rw [hsome] at htname ⊢
            rw [htname]
            rfl
          · rw [← hh0]
            have hsame : (fun (p : String × String) => p.1 == f.column.name)
                = (fun (p : String × String) => p.1 == h0.1) := by
              rw [hh0]
            rw [hsame] at hfindH
            rw [hfindH, ← Prod.mk.eta (p := h0), hh0]
  · have htr' : truthy f.column.table = false := by
      rw [Bool.eq_false_iff]
      exact htr
    simp only [htr', Bool.false_eq_true, if_false] at h
    cases hg : get_table_for_field f.column.name tables with
    | error e =>
      rw [hg] at h
      cases h
    | ok t =>
      rw [hg] at h
      simp only [exc_bind_ok, exc_pure_eq] at h
      split at h
      · split at h
        · cases h
        · split at h
          · cases h
          · next table hfindT =>
            split at h
            · cases h
            next h0 hfindH =>
            simp only [exc_pure_eq, Except.ok.injEq, Prod.mk.injEq] at h
            obtain ⟨hf', -⟩ := h
            subst hf'
            have htmem : table ∈ tables := List.mem_of_find?_eq_some hfindT
            have htname : table.name = t.name := by
              have := List.find?_some hfindT
              simpa using this
            have hh0 : h0.1 = f.column.name := by
              have := List.find?_some hfindH
              simpa using this
            refine ⟨table, h0.2, htmem, ?_, ?_⟩
            · rw [htname]
            · rw [← hh0]
              have hsame : (fun (p : String × String) => p.1 == f.column.name)
                  = (fun (p : String × String) => p.1 == h0.1) := by
                rw [hh0]
              rw [hsame] at hfindH
              rw [hfindH, ← Prod.mk.eta (p := h0), hh0]
      · next hfalse =>
        exfalso
        have ht : t ∈ tables := (get_table_for_field_spec f.column.name tables t hg).1
        have hne : t.name ≠ "" := (hts t ht).1.1
        exact hfalse (truthy_some_of_ne t.name hne)

/-- Every field of a validated select list is annotated against the
table set. -/
theorem validate_select_go_ann (tables : List Table) (fromItems : List FromItem)
    (hts : ∀ t ∈ tables, tableWF t) :
    ∀ (fields sel' : List SelectField) (hdrs : List (String × String)),
    validate_select_go tables fromItems fields = .ok (sel', hdrs) →
    ∀ f ∈ sel', selFieldOK tables f := by
  intro fields
  induction fields with
  | nil =>
    intro sel' hdrs h f hf
    rw [validate_select_go] at h
    simp only [Except.ok.injEq, Prod.mk.injEq] at h
    obtain ⟨h1, -⟩ := h
    subst h1
    cases hf
  | cons f0 fs ih =>
    intro sel' hdrs h f hf
    rw [validate_select_go] at h
    cases h1 : validate_select_field tables fromItems f0 with
    | error e =>
      rw [h1] at h
      cases h
    | ok p1 =>
      obtain ⟨f1, hs1⟩ := p1
      rw [h1] at h
      simp only [exc_bind_ok] at h
      cases h2 : validate_select_go tables fromItems fs with
      | error e =>
        rw [h2] at h
        cases h
      | ok p2 =>
        obtain ⟨fs', rest⟩ := p2
        rw [h2] at h
        simp only [exc_bind_ok, Except.ok.injEq, Prod.mk.injEq] at h
        obtain ⟨hsel, -⟩ := h
        subst hsel
        rcases List.mem_cons.mp hf with rfl | hf'
        · exact validate_select_field_ann tables fromItems hts f0 f hs1 h1
        · exact ih fs' rest h2 f hf'

/-- The fields of a validated query's annotated select list are all
annotated against the table set. -/
theorem validate_ann (q : Query) (tables : List Table) (hts : ∀ t ∈ tables, tableWF t)
    (hdrs : List (String × String)) (q' : Query)
    (h : validate_and_coalesce_select q tables = .ok (hdrs, q')) :
    ∀ f ∈ q'.select, selFieldOK tables f := by
  rw [validate_and_coalesce_select] at h
  cases hgo : validate_select_go tables q.«from» q.select with
  | error e =>
    rw [hgo] at h
    cases h
  | ok p =>
    obtain ⟨sel', hh⟩ := p
    rw [hgo] at h
    simp only [exc_bind_ok, exc_pure_eq, Except.ok.injEq, Prod.mk.injEq] at h
    obtain ⟨-, h2⟩ := h
    subst h2
    exact validate_select_go_ann tables q.«from» hts q.select sel' hh hgo

/-- The classification loop keeps bucket keys duplicate-free. -/
theorem parse_where_go_keys_nodup (tables : List Table) :
    ∀ (conds : List Condition) (lt : Option Table) (early : List (String × List Condition))
      (late acc : List Condition) (early' : List (String × List Condition))
      (late' acc' : List Condition),
    parse_where_go tables lt early late acc conds = .ok (early', late', acc') →
    (early.map (·.1)).Nodup → (early'.map (·.1)).Nodup := by
  intro conds
  induction conds with
  | nil =>
    intro lt early late acc early' late' acc' h hnd
    rw [parse_where_go] at h
    simp only [Except.ok.injEq, Prod.mk.injEq] at h
    obtain ⟨h1, -, -⟩ := h
    subst h1
    exact hnd
  | cons c cs ih =>
    intro lt early late acc early' late' acc' h hnd
    rw [parse_where_go] at h
    cases hcc : classify_condition tables lt c with
    | error e =>
      rw [hcc] at h
      cases h
    | ok quad =>
      obtain ⟨c', types, involved, lt2⟩ := quad
      rw [hcc] at h
      simp only [exc_bind_ok] at h
      by_cases hty : types.length > 1
      · rw [if_pos hty] at h
        cases h
      · rw [if_neg hty] at h
        by_cases hni : involved.length > 1
        · rw [if_pos hni] at h
          exact ih lt2 early (late ++ [c']) (acc ++ [c']) early' late' acc' h hnd
        · rw [if_neg hni] at h
          cases lt2 with
          | none => cases h
          | some t =>
            exact ih (some t) (addEarly early t.name c') late (acc ++ [c']) early' late'
              acc' h (addEarly_keys_nodup early t.name c' hnd)

/-- Membership in the flattened early buckets. -/
theorem mem_earlyConds (early : List (String × List Condition)) (c : Condition) :
    c ∈ earlyConds early ↔ ∃ p ∈ early, c ∈ p.2 := by
  rw [earlyConds]
  constructor
  · intro h
    obtain ⟨l, hl, hcl⟩ := List.mem_flatten.mp h
    obtain ⟨p, hp, hpl⟩ := List.mem_map.mp hl
    exact ⟨p, hp, hpl ▸ hcl⟩
  · intro ⟨p, hp, hc⟩
    exact List.mem_flatten.mpr ⟨p.2, List.mem_map_of_mem (·.2) hp, hc⟩

/-- A bucket-confined condition evaluates without raising on a row of
its own table. -/
theorem direct_condition_ok_single (tables : List Table) (t : Table) (c : Condition)
    (r : Row) (hnames : (tables.map (·.name)).Nodup) (ht : t ∈ tables)
    (hwfc : evalWF tables c)
    (halias : condAliases c = [t.name] ∨ condAliases c = [])
    (hcov : rowCoversT t r) :
    ∃ b, direct_condition c r = .ok b := by
  obtain ⟨hop, -, -, l, hl, hr⟩ := hwfc
  have hside : ∀ (e : Expr), annSideOK tables e l →
      (∀ ref, e = .column ref → ref.table.getD "" ∈ condAliases c) →
      ∃ v, direct_expression e r = .ok v ∧ literalTypeLabel v = l := by
    intro e hann hmem
    rcases hann with ⟨v, he, hv⟩ | ⟨ref, t', he, ht', href, hfind⟩
    · subst he
      exact ⟨v, rfl, hv⟩
    · subst he
      have hin := hmem ref rfl
      have hx : ref.table.getD "" = t.name := by
        rcases halias with ha | ha
        · rw [ha] at hin
          exact List.mem_singleton.mp hin
        · rw [ha] at hin
          cases hin
      have hteq : t' = t := by
        refine table_name_inj tables hnames t' ht' t ht ?_
        rw [href] at hx
        simpa using hx
      have hcov' : rowCoversT t' r := by
        rw [hteq]
        exact hcov
      obtain ⟨v, hget, hvl⟩ := hcov' ref.name l hfind
      have hkey : columnKey ref = t'.name ++ "." ++ ref.name := by
        rw [columnKey, href]
      refine ⟨v, ?_, hvl⟩
      simp only [direct_expression]
      rw [hkey, hget]
  obtain ⟨va, hva, hla⟩ := hside c.left hl (fun ref he => left_alias_mem c ref he)
  obtain ⟨vb, hvb, hlb⟩ := hside c.right hr (fun ref he => right_alias_mem c ref he)
  obtain ⟨x, hx⟩ := pyCompare_ok c.op hop va vb (by rw [hla, hlb])
  refine ⟨x, ?_⟩
  rw [direct_condition, hva]
  simp only [exc_bind_ok]
  rw [hvb]
  simp only [exc_bind_ok]
  exact hx

/-- On a covering row, the compiled filter of directly-evaluable
conditions computes their total Boolean conjunction. -/
theorem call_ok (tables : List Table) (conds : List Condition) (j : Row)
    (hwf : ∀ c ∈ conds, evalWF tables c) (hcov : rowCovers tables j) :
    TableFilter.call (TableFilter.build conds) j = .ok (matchesB conds j) := by
  have hok : ∀ c ∈ conds, ∃ b, direct_condition c j = .ok b :=
    fun c hc => direct_condition_ok tables c j (hwf c hc) hcov
  rw [call_build_eq_direct conds j
    (fun c hc => ⟨(hwf c hc).1, (hwf c hc).2.1, (hwf c hc).2.2.1⟩)]
  rw [direct_matches_ok conds j hok, matchesB_eq_all conds j hok]

/-- On a row of its own table, the compiled filter of a bucket's
conditions computes their total Boolean conjunction. -/
theorem call_ok_bucket (tables : List Table) (t : Table) (conds : List Condition) (r : Row)
    (hnames : (tables.map (·.name)).Nodup) (ht : t ∈ tables)
    (hwf : ∀ c ∈ conds, evalWF tables c ∧ (condAliases c = [t.name] ∨ condAliases c = []))
    (hcov : rowCoversT t r) :
    TableFilter.call (TableFilter.build conds) r = .ok (matchesB conds r) := by
  have hok : ∀ c ∈ conds, ∃ b, direct_condition c r = .ok b :=
    fun c hc => direct_condition_ok_single tables t c r hnames ht (hwf c hc).1
      (hwf c hc).2 hcov
  rw [call_build_eq_direct conds r
    (fun c hc => ⟨(hwf c hc).1.1, (hwf c hc).1.2.1, (hwf c hc).1.2.2.1⟩)]
  rw [direct_matches_ok conds r hok, matchesB_eq_all conds r hok]

/-- On a covering row, the total reading of the compiled filter is the
Boolean conjunction of the conditions. -/
theorem callB_eq_all (tables : List Table) (conds : List Condition) (j : Row)
    (hwf : ∀ c ∈ conds, evalWF tables c) (hcov : rowCovers tables j) :
    callB (TableFilter.build conds) j = conds.all (fun c => condB c j) := by
  have hok : ∀ c ∈ conds, ∃ b, direct_condition c j = .ok b :=
    fun c hc => direct_condition_ok tables c j (hwf c hc) hcov
  rw [callB, call_ok tables conds j hwf hcov]
  exact matchesB_eq_all conds j hok

/-- A tuple of the enumerated cross product picks one member from each
input list, in order. -/
theorem product_mem_general : ∀ (lss : List (List Row)) (tuple : List Row),
    tuple ∈ itertools_product lss →
    List.Forall₂ (fun (r : Row) (l : List Row) => r ∈ l) tuple lss := by
  intro lss
  induction lss with
  | nil =>
    intro tuple h
    simp only [itertools_product, List.mem_singleton] at h
    subst h
    exact List.Forall₂.nil
  | cons l ls ih =>
    intro tuple h
    simp only [itertools_product, List.mem_flatten, List.mem_map] at h
    obtain ⟨blk, ⟨r, hr, hblk⟩, htl⟩ := h
    subst hblk
    simp only [List.mem_map] at htl
    obtain ⟨tuple', htuple', he⟩ := htl
    subst he
    exact List.Forall₂.cons hr (ih tuple' htuple')

/-- The facts the classification of a well-formed query establishes:
duplicate-free bucket keys naming member tables, directly-evaluable
bucket-confined conditions, directly-evaluable late and annotated
conditions, and the buckets plus the late list holding exactly the
annotated conditions up to permutation. -/
theorem parse_where_clause_facts (q : Query) (tables : List Table)
    (hwf : tablesWF tables) (hq : queryWF q)
    (early : List (String × List Condition)) (late ann : List Condition)
    (h : parse_where_clause q tables = .ok (early, late, ann)) :
    (early.map (·.1)).Nodup
    ∧ (∀ p ∈ early, (∃ t ∈ tables, t.name = p.1)
        ∧ ∀ c ∈ p.2, evalWF tables c ∧ (condAliases c = [p.1] ∨ condAliases c = []))
    ∧ (∀ c ∈ late, evalWF tables c)
    ∧ (∀ c ∈ ann, evalWF tables c)
    ∧ List.Perm (earlyConds early ++ late) ann := by
  rw [parse_where_clause] at h
  have hkeys := parse_where_go_keys_nodup tables q.«where» none [] [] [] early late ann h
    (by simp)
  obtain ⟨hE, hL, hA⟩ := parse_where_go_wf tables hwf.2 q.«where» none [] [] [] early late
    ann h hq (by intro t ht; cases ht) (by intro p hp; cases hp) (by intro c hc; cases hc)
    (by intro c hc; cases hc)
  obtain ⟨-, hInv2, -, -, -⟩ :=
    parse_where_go_inv tables q.«where» none [] [] [] early late ann h
  obtain ⟨delta, hdelta, hperm⟩ :=
    parse_where_go_perm tables q.«where» none [] [] [] early late ann h (by simp)
  have hdelta' : delta = ann := by simpa using hdelta.symm
  refine ⟨hkeys, ?_, hL, hA, ?_⟩
  · intro p hp
    refine ⟨(hE p hp).1, ?_⟩
    intro c hc
    refine ⟨(hE p hp).2 c hc, ?_⟩
    rcases hInv2 p hp c hc with ⟨l0, hl0, -⟩ | h2 | h2
    · cases hl0
    · exact .inl h2
    · exact .inr h2
  · rw [hdelta'] at hperm
    simpa [earlyConds] using hperm

/-- Every condition of an early bucket is directly evaluable and
confined to the bucket's table. -/
theorem earlyBucket_facts (tables : List Table) (early : List (String × List Condition))
    (hbuckets : ∀ p ∈ early, (∃ t ∈ tables, t.name = p.1)
      ∧ ∀ c ∈ p.2, evalWF tables c ∧ (condAliases c = [p.1] ∨ condAliases c = []))
    (t : Table) :
    ∀ c ∈ earlyBucket early t,
      evalWF tables c ∧ (condAliases c = [t.name] ∨ condAliases c = []) := by
  intro c hc
  cases hlook : lookupEarly early t.name with
  | none =>
    rw [earlyBucket, hlook] at hc
    cases hc
  | some l =>
    rw [earlyBucket, hlook] at hc
    exact (hbuckets (t.name, l) (lookupEarly_mem early t.name l hlook)).2 c hc

/-- The heart of pushdown equivalence, pointwise on one product tuple:
passing every per-table early bucket on the component rows and the late
filter on the joined row is the same test as passing every annotated
condition on the joined row. -/
theorem pushdown_pointwise (tables : List Table) (hwf : tablesWF tables)
    (early : List (String × List Condition)) (late ann : List Condition)
    (hkeys : (early.map (·.1)).Nodup)
    (hbuckets : ∀ p ∈ early, (∃ t ∈ tables, t.name = p.1)
      ∧ ∀ c ∈ p.2, evalWF tables c ∧ (condAliases c = [p.1] ∨ condAliases c = []))
    (hlate : ∀ c ∈ late, evalWF tables c)
    (hann : ∀ c ∈ ann, evalWF tables c)
    (hperm : List.Perm (earlyConds early ++ late) ann)
    (tuple : List Row)
    (hrel : List.Forall₂ (fun (r : Row) (t : Table) => r ∈ t.rows) tuple tables) :
    (zipAllB (tables.map (fun t => fun r => matchesB (earlyBucket early t) r)) tuple
      && callB (TableFilter.build late) (joinRows tuple))
    = callB (TableFilter.build ann) (joinRows tuple) := by
  have hcov : rowCovers tables (joinRows tuple) := rowCovers_joined tables tuple hwf hrel
  have hlen : tuple.length = tables.length := hrel.length_eq
  have hboolext : ∀ (x y : Bool), (x = true ↔ y = true) → x = y := by decide
  refine hboolext _ _ ?_
  rw [Bool.and_eq_true, callB_eq_all tables late _ hlate hcov,
    callB_eq_all tables ann _ hann hcov, List.all_eq_true, List.all_eq_true,
    zipAllB_map (fun t => fun r => matchesB (earlyBucket early t) r) tables tuple hlen]
  constructor
  · rintro ⟨hz, hlateAll⟩ c hc
    have hc' : c ∈ earlyConds early ++ late := hperm.mem_iff.mpr hc
    rcases List.mem_append.mp hc' with hce | hcl
    · obtain ⟨p, hp, hcp⟩ := (mem_earlyConds early c).mp hce
      obtain ⟨⟨t, htmem, htname⟩, hpc⟩ := hbuckets p hp
      obtain ⟨r, hzip, hrt⟩ := forall2_mem_right_zip hrel t htmem
      have hbucket : earlyBucket early t = p.2 := by
        rw [earlyBucket, htname, lookupEarly_of_mem early p.1 p.2 hkeys hp]
        rfl
      have hmr := hz (r, t) hzip
      rw [hbucket] at hmr
      have hok : ∀ d ∈ p.2, ∃ b, direct_condition d r = .ok b := fun d hd =>
        direct_condition_ok_single tables t d r hwf.1 htmem (hpc d hd).1
          (htname ▸ (hpc d hd).2) (rowCoversT_of_mem t (hwf.2 t htmem) r hrt)
      rw [matchesB_eq_all p.2 r hok, List.all_eq_true] at hmr
      have hcr := hmr c hcp
      have hlocal : direct_condition c (joinRows tuple) = direct_condition c r :=
        direct_condition_local tables tuple hwf hrel r t hzip c (htname ▸ (hpc c hcp).2)
      show condB c (joinRows tuple) = true
      rw [condB, hlocal]
      rw [condB] at hcr
      exact hcr
    · exact hlateAll c hcl
  · intro hannAll
    have hallj : ∀ c ∈ earlyConds early ++ late, condB c (joinRows tuple) = true := by
      intro c hc
      exact hannAll c (hperm.mem_iff.mp hc)
    constructor
    · intro pr hpr
      obtain ⟨r, t⟩ := pr
      have hrt : r ∈ t.rows := forall2_zip_mem hrel r t hpr
      have htmem : t ∈ tables := (List.of_mem_zip hpr).2
      cases hlook : lookupEarly early t.name with
      | none =>
        have hbucket : earlyBucket early t = [] := by
          rw [earlyBucket, hlook]
          rfl
        rw [hbucket]
        rfl
      | some l =>
        have hbucket : earlyBucket early t = l := by
          rw [earlyBucket, hlook]
          rfl
        have hpl : (t.name, l) ∈ early := lookupEarly_mem early t.name l hlook
        obtain ⟨-, hpc⟩ := hbuckets (t.name, l) hpl
        rw [hbucket]
        have hok : ∀ d ∈ l, ∃ b, direct_condition d r = .ok b := fun d hd =>
          direct_condition_ok_single tables t d r hwf.1 htmem (hpc d hd).1 (hpc d hd).2
            (rowCoversT_of_mem t (hwf.2 t htmem) r hrt)
        rw [matchesB_eq_all l r hok, List.all_eq_true]
        intro d hd
        have hdj : condB d (joinRows tuple) = true := hallj d (List.mem_append_left _
          ((mem_earlyConds early d).mpr ⟨(t.name, l), hpl, hd⟩))
        have hlocal : direct_condition d (joinRows tuple) = direct_condition d r :=
          direct_condition_local tables tuple hwf hrel r t hpr d (hpc d hd).2
        rw [condB]
        rw [← hlocal]
        rw [condB] at hdj
        exact hdj
    · intro c hc
      exact hallj c (List.mem_append_right _ hc)

/-- The validated query keeps its WHERE well-formedness. -/
theorem queryWF_of_validate (q : Query) (ts : List Table) (hq : queryWF q)
    (hdrs : List (String × String)) (q' : Query)
    (hv : validate_and_coalesce_select q ts = .ok (hdrs, q')) : queryWF q' := by
  intro c hc
  rw [(validate_preserves_from_where q ts hdrs q' hv).1] at hc
  exact hq c hc

/-- The pushdown loop of a validated, well-formed run: each table is
filtered by the total Boolean reading of its own early bucket. -/
theorem filter_tables_char (ts : List Table) (hwf : tablesWF ts)
    (early : List (String × List Condition))
    (hbuckets : ∀ p ∈ early, (∃ t ∈ ts, t.name = p.1)
      ∧ ∀ c ∈ p.2, evalWF ts c ∧ (condAliases c = [p.1] ∨ condAliases c = [])) :
    filter_tables ts early = .ok (ts.map (fun t =>
      t.rows.filter (fun r => matchesB (earlyBucket early t) r))) := by
  refine filter_tables_ok early (fun t => fun r => matchesB (earlyBucket early t) r) ts ?_
  intro t ht r hr
  exact call_ok_bucket ts t (earlyBucket early t) r hwf.1 ht
    (earlyBucket_facts ts early hbuckets t) (rowCoversT_of_mem t (hwf.2 t ht) r hr)

/-- A tuple drawn from the per-table filtered row lists picks a genuine
row of each table, in order. -/
theorem product_filtered_aligned (ts : List Table)
    (early : List (String × List Condition)) (tuple : List Row)
    (htuple : tuple ∈ itertools_product (ts.map (fun t =>
      t.rows.filter (fun r => matchesB (earlyBucket early t) r)))) :
    List.Forall₂ (fun (r : Row) (t : Table) => r ∈ t.rows) tuple ts := by
  have h1 := product_mem_general _ tuple htuple
  have h2 := List.forall₂_map_right_iff.mp h1
  exact List.Forall₂.imp (fun r t hmem => List.mem_of_mem_filter hmem) h2

/-- A tuple drawn from the unfiltered row lists picks a row of each
table, in order. -/
theorem product_full_aligned (ts : List Table) (tuple : List Row)
    (htuple : tuple ∈ itertools_product (ts.map (·.rows))) :
    List.Forall₂ (fun (r : Row) (t : Table) => r ∈ t.rows) tuple ts := by
  have h1 := product_mem_general _ tuple htuple
  exact List.forall₂_map_right_iff.mp h1

/-- The complete observable behaviour of a validated, well-formed run
of `execute`: the header, then — over the cross product of the
early-filtered tables in FROM order — the joined rows passing the late
filter, projected in select-list order, with nothing raised. -/
theorem execute_char (q : Query) (ts : List Table) (hwf : tablesWF ts) (hq : queryWF q)
    (hdrs : List (String × String)) (q' : Query)
    (early : List (String × List Condition)) (late ann : List Condition)
    (hv : validate_and_coalesce_select q ts = .ok (hdrs, q'))
    (hp : parse_where_clause q' ts = .ok (early, late, ann)) :
    execute q ts = (.header hdrs ::
      (((itertools_product (ts.map (fun t =>
            t.rows.filter (fun r => matchesB (earlyBucket early t) r)))).map joinRows).filter
        (fun j => callB (TableFilter.build late) j)).map
        (fun j => OutElem.row (selectProj q' j)), none) := by
  have hq' : queryWF q' := queryWF_of_validate q ts hq hdrs q' hv
  obtain ⟨hkeys, hbuckets, hlate, hann, hperm⟩ :=
    parse_where_clause_facts q' ts hwf hq' early late ann hp
  have hfields := validate_ann q ts hwf.2 hdrs q' hv
  have hft := filter_tables_char ts hwf early hbuckets
  have hprod : ∀ j ∈ (itertools_product (ts.map (fun t =>
        t.rows.filter (fun r => matchesB (earlyBucket early t) r)))).map joinRows,
      (∃ b, TableFilter.call (TableFilter.build late) j = .ok b)
      ∧ evaluate_select j q' = .ok (selectProj q' j) := by
    intro j hj
    obtain ⟨tuple, htuple, hje⟩ := List.mem_map.mp hj
    subst hje
    have hrel := product_filtered_aligned ts early tuple htuple
    have hcov := rowCovers_joined ts tuple hwf hrel
    exact ⟨⟨matchesB late (joinRows tuple), call_ok ts late _ hlate hcov⟩,
      evaluate_select_ok ts q' _ hcov hfields⟩
  have hpr := produce_rows_no_error q' (TableFilter.build late)
    ((itertools_product (ts.map (fun t =>
      t.rows.filter (fun r => matchesB (earlyBucket early t) r)))).map joinRows)
    (fun j hj => (hprod j hj).1) (fun j hj => ⟨selectProj q' j, (hprod j hj).2⟩)
  simp only [execute, hv, hp, hft, hpr]
  rw [List.map_map]
  refine congrArg (fun l => (OutElem.header hdrs :: l, (none : Option Err))) ?_
  refine List.map_congr_left ?_
  intro j hj
  have hj' := List.mem_of_mem_filter hj
  show OutElem.row (selVals q' j) = OutElem.row (selectProj q' j)
  rw [selVals, (hprod j hj').2]

/-- The complete observable behaviour of a validated, well-formed run
of the specification's all-late baseline: the header, then — over the
cross product of the unfiltered tables — the joined rows passing every
annotated condition, projected in select-list order, with nothing
raised. -/
theorem execute_all_late_char (q : Query) (ts : List Table) (hwf : tablesWF ts)
    (hq : queryWF q) (hdrs : List (String × String)) (q' : Query)
    (early : List (String × List Condition)) (late ann : List Condition)
    (hv : validate_and_coalesce_select q ts = .ok (hdrs, q'))
    (hp : parse_where_clause q' ts = .ok (early, late, ann)) :
    execute_all_late q ts = (.header hdrs ::
      (((itertools_product (ts.map (·.rows))).map joinRows).filter
        (fun j => callB (TableFilter.build ann) j)).map
        (fun j => OutElem.row (selectProj q' j)), none) := by
  have hq' : queryWF q' := queryWF_of_validate q ts hq hdrs q' hv
  obtain ⟨hkeys, hbuckets, hlate, hann, hperm⟩ :=
    parse_where_clause_facts q' ts hwf hq' early late ann hp
  have hfields := validate_ann q ts hwf.2 hdrs q' hv
  have hprod : ∀ j ∈ (itertools_product (ts.map (·.rows))).map joinRows,
      (∃ b, TableFilter.call (TableFilter.build ann) j = .ok b)
      ∧ evaluate_select j q' = .ok (selectProj q' j) := by
    intro j hj
    obtain ⟨tuple, htuple, hje⟩ := List.mem_map.mp hj
    subst hje
    have hrel := product_full_aligned ts tuple htuple
    have hcov := rowCovers_joined ts tuple hwf hrel
    exact ⟨⟨matchesB ann (joinRows tuple), call_ok ts ann _ hann hcov⟩,
      evaluate_select_ok ts q' _ hcov hfields⟩
  have hpr := produce_rows_no_error q' (TableFilter.build ann)
    ((itertools_product (ts.map (·.rows))).map joinRows)
    (fun j hj => (hprod j hj).1) (fun j hj => ⟨selectProj q' j, (hprod j hj).2⟩)
  simp only [execute_all_late, hv, hp, hpr]
  rw [List.map_map]
  refine congrArg (fun l => (OutElem.header hdrs :: l, (none : Option Err))) ?_
  refine List.map_congr_left ?_
  intro j hj
  have hj' := List.mem_of_mem_filter hj
  show OutElem.row (selVals q' j) = OutElem.row (selectProj q' j)
  rw [selVals, (hprod j hj').2]

/-- C1: pushdown equivalence.  For every well-formed table set (distinct
dot-free aliases, schema-typed rows) and well-formed query (the six
operators, clean literals), `execute` — which filters each table by its
early bucket before the join and applies only the late conditions after
it — produces exactly the trace of the all-late baseline, which joins
the tables unfiltered and applies every annotated WHERE condition after
the join: same header, same data rows in the same order, same absence
of errors.  Classification changes only where the work happens, never
the result. -/
theorem C1_pushdown_equivalence (q : Query) (ts : List Table)
    (hwf : tablesWF ts) (hq : queryWF q) :
    execute q ts = execute_all_late q ts := by
  cases hv : validate_and_coalesce_select q ts with
  | error e => simp [execute, execute_all_late, hv]
  | ok p =>
    obtain ⟨hdrs, q'⟩ := p
    cases hp : parse_where_clause q' ts with
    | error e => simp [execute, execute_all_late, hv, hp]
    | ok triple =>
      obtain ⟨early, late, ann⟩ := triple
      rw [execute_char q ts hwf hq hdrs q' early late ann hv hp,
        execute_all_late_char q ts hwf hq hdrs q' early late ann hv hp]
      have hq' := queryWF_of_validate q ts hq hdrs q' hv
      obtain ⟨hkeys, hbuckets, hlate, hann, hperm⟩ :=
        parse_where_clause_facts q' ts hwf hq' early late ann hp
      refine congrArg (fun l => (OutElem.header hdrs :: l, (none : Option Err))) ?_
      have hexch := itertools_product_filter (ts.map (fun t =>
        ((t.rows, fun r => matchesB (earlyBucket early t) r) : List Row × (Row → Bool))))
      rw [List.map_map, List.map_map, List.map_map] at hexch
      rw [show ((fun (x : List Row × (Row → Bool)) => x.1.filter x.2) ∘ (fun t =>
            ((t.rows, fun r => matchesB (earlyBucket early t) r) : List Row × (Row → Bool))))
          = (fun t => t.rows.filter (fun r => matchesB (earlyBucket early t) r)) from rfl,
        show ((fun (x : List Row × (Row → Bool)) => x.1) ∘ (fun t =>
            ((t.rows, fun r => matchesB (earlyBucket early t) r) : List Row × (Row → Bool))))
          = (fun (t : Table) => t.rows) from rfl,
        show ((fun (x : List Row × (Row → Bool)) => x.2) ∘ (fun t =>
            ((t.rows, fun r => matchesB (earlyBucket early t) r) : List Row × (Row → Bool))))
          = (fun t => fun r => matchesB (earlyBucket early t) r) from rfl] at hexch
      rw [hexch, List.filter_map, List.filter_filter, List.filter_map]
      refine congrArg _ (congrArg _ (List.filter_congr ?_))
      intro tuple htuple
      show (callB (TableFilter.build late) (joinRows tuple)
          && zipAllB (ts.map (fun t => fun r => matchesB (earlyBucket early t) r)) tuple)
        = callB (TableFilter.build ann) (joinRows tuple)
      rw [Bool.and_comm]
      exact pushdown_pointwise ts hwf early late ann hkeys hbuckets hlate hann hperm
        tuple (product_full_aligned ts tuple htuple)

instance (s : String) : Decidable (nameOK s) := by
  unfold nameOK
  infer_instance

/-- The scenario-1 tables are well-formed per the data model. -/
theorem exTables_wf : tablesWF [exU, exO] := by
  constructor
  · decide
  · intro t ht
    rcases List.mem_cons.mp ht with rfl | ht
    · refine ⟨by decide, by decide, by decide, ?_⟩
      intro r hr
      rw [List.mem_singleton.mp hr]
      exact List.Forall₂.cons ⟨by decide, by decide⟩
        (List.Forall₂.cons ⟨by decide, by decide⟩ List.Forall₂.nil)
    · rcases List.mem_cons.mp ht with rfl | ht
      · refine ⟨by decide, by decide, by decide, ?_⟩
        intro r hr
        rcases List.mem_cons.mp hr with rfl | hr
        · exact List.Forall₂.cons ⟨by decide, by decide⟩
            (List.Forall₂.cons ⟨by decide, by decide⟩ List.Forall₂.nil)
        · rw [List.mem_singleton.mp hr]
          exact List.Forall₂.cons ⟨by decide, by decide⟩
            (List.Forall₂.cons ⟨by decide, by decide⟩ List.Forall₂.nil)
      · cases ht

/-- The scenario-1 query is well-formed per the data model. -/
theorem exQ1_wf : queryWF exQ1 := by
  intro c hc
  rw [List.mem_singleton.mp hc]
  exact ⟨by decide, trivial, trivial⟩

theorem C1_pushdown_witness :
    tablesWF [exU, exO] ∧ queryWF exQ1
    ∧ execute exQ1 [exU, exO] = execute_all_late exQ1 [exU, exO] :=
  ⟨exTables_wf, exQ1_wf, C1_pushdown_equivalence exQ1 [exU, exO] exTables_wf exQ1_wf⟩

/-- C8: for a validated, well-formed run — SELECT validation returning
the header and annotated query, WHERE classification returning the
buckets, and the pushdown step returning the filtered row lists `lss`
in FROM order — the stream of `execute` is exactly: the header first,
then the cross product of `lss` enumerated by `itertools_product`
(left-most table varying slowest), each tuple merged into a joined row,
kept when the late filter accepts it, and projected by reading each
select item's qualified name in select-list order, independent of the
joined row's internal key order. -/
theorem C8_nested_loop_order_and_select_list_projection (q : Query) (ts : List Table)
    (hwf : tablesWF ts) (hq : queryWF q)
    (hdrs : List (String × String)) (q' : Query)
    (early : List (String × List Condition)) (late ann : List Condition)
    (lss : List (List Row))
    (hv : validate_and_coalesce_select q ts = .ok (hdrs, q'))
    (hp : parse_where_clause q' ts = .ok (early, late, ann))
    (hf : filter_tables ts early = .ok lss) :
    execute q ts = (.header hdrs ::
      (((itertools_product lss).map joinRows).filter
        (fun j => callB (TableFilter.build late) j)).map
        (fun j => OutElem.row (selectProj q' j)), none) := by
  have hq' := queryWF_of_validate q ts hq hdrs q' hv
  obtain ⟨hkeys, hbuckets, hlate, hann, hperm⟩ :=
    parse_where_clause_facts q' ts hwf hq' early late ann hp
  have hft := filter_tables_char ts hwf early hbuckets
  have hlss : lss = ts.map (fun t =>
      t.rows.filter (fun r => matchesB (earlyBucket early t) r)) := by
    rw [hf] at hft
    injection hft
  rw [hlss]
  exact execute_char q ts hwf hq hdrs q' early late ann hv hp

/-- The output header of the scenario-1 query. -/
def exHdrs : List (String × String) := [("name", "str"), ("id", "int")]

/-- The scenario-1 query after SELECT annotation. -/
def exQ1Ann : Query :=
  ⟨[⟨⟨some "u", "name"⟩, "name"⟩, ⟨⟨some "o", "id"⟩, "id"⟩],
   [⟨"u", "u"⟩, ⟨"o", "o"⟩],
   [⟨.column ⟨some "u", "id"⟩, "=", .column ⟨none, "user_id"⟩⟩]⟩

theorem C8_nested_loop_witness :
    tablesWF [exU, exO] ∧ queryWF exQ1
    ∧ validate_and_coalesce_select exQ1 [exU, exO] = .ok (exHdrs, exQ1Ann)
    ∧ parse_where_clause exQ1Ann [exU, exO] = .ok ([], [exQ1CondAnn], [exQ1CondAnn])
    ∧ filter_tables [exU, exO] [] = .ok [exU.rows, exO.rows]
    ∧ execute exQ1 [exU, exO] = (.header exHdrs ::
        (((itertools_product [exU.rows, exO.rows]).map joinRows).filter
          (fun j => callB (TableFilter.build [exQ1CondAnn]) j)).map
          (fun j => OutElem.row (selectProj exQ1Ann j)), none) :=
  ⟨exTables_wf, exQ1_wf, rfl, rfl, rfl,
    C8_nested_loop_order_and_select_list_projection exQ1 [exU, exO] exTables_wf exQ1_wf
      exHdrs exQ1Ann [] [exQ1CondAnn] [exQ1CondAnn] [exU.rows, exO.rows]
      rfl rfl rfl⟩
